import Mathlib

/-!
# portable-lib: MurmurHash3 (`src/hashfunc/murmur3_hash.c`) and Xoroshiro128+ (`src/prng/xoroshiro.c`)

A shallow embedding of the two C files.  Machine words are natural numbers; every
operation that can leave the word width in C is followed by an explicit `% 2^32` or
`% 2^64`.  A byte buffer is a list of bytes; `data[i]` is `byteAt data i`.
-/

namespace PortableLib

/-! ## Words and memory -/

/-- Source `rotl32(uint32_t x, int8_t r)`: `(x << r) | (x >> (32 - r))`, the shift
left taken in 32 bits. -/
def rotl32 (x r : Nat) : Nat :=
  ((x <<< r) % 2 ^ 32) ||| (x >>> (32 - r))

/-- Source `rotl64(uint64_t x, int8_t r)`: `(x << r) | (x >> (64 - r))`, the shift
left taken in 64 bits. -/
def rotl64 (x r : Nat) : Nat :=
  ((x <<< r) % 2 ^ 64) ||| (x >>> (64 - r))

/-- The byte `data[i]` of a `const uint8_t *data`.  A read outside the buffer is
undefined in C; here it yields 0. -/
def byteAt (data : List (Fin 256)) (i : Nat) : Nat :=
  (data.getD i 0).val

/-- The 32-bit word `getblock(p, i)` = `p[i]` whose first byte sits at byte offset
`off` of the buffer, assembled in native little-endian order. -/
def getblock32 (data : List (Fin 256)) (off : Nat) : Nat :=
  byteAt data off ||| (byteAt data (off + 1) <<< 8) |||
    (byteAt data (off + 2) <<< 16) ||| (byteAt data (off + 3) <<< 24)

/-- The 64-bit word `getblock(p, i)` = `p[i]` whose first byte sits at byte offset
`off` of the buffer, assembled in native little-endian order. -/
def getblock64 (data : List (Fin 256)) (off : Nat) : Nat :=
  getblock32 data off ||| (getblock32 data (off + 4) <<< 32)

/-! ## Finalization mixes -/

/-- Source `fmix(uint32_t h)`. -/
def fmix (h : Nat) : Nat :=
  let h := h ^^^ (h >>> 16)
  let h := (h * 0x85ebca6b) % 2 ^ 32
  let h := h ^^^ (h >>> 13)
  let h := (h * 0xc2b2ae35) % 2 ^ 32
  h ^^^ (h >>> 16)

/-- Source `fmix64(uint64_t k)`. -/
def fmix64 (k : Nat) : Nat :=
  let k := k ^^^ (k >>> 33)
  let k := (k * 0xff51afd7ed558ccd) % 2 ^ 64
  let k := k ^^^ (k >>> 33)
  let k := (k * 0xc4ceb9fe1a85ec53) % 2 ^ 64
  k ^^^ (k >>> 33)

/-! ## `murmur3_hash_32` -/

/-- The statements `k1 *= c1; k1 = ROTL32(k1,15); k1 *= c2;` of `murmur3_hash_32`,
with `c1 = 0xcc9e2d51` and `c2 = 0x1b873593`. -/
def mix32_k1 (k1 : Nat) : Nat :=
  let k1 := (k1 * 0xcc9e2d51) % 2 ^ 32
  let k1 := rotl32 k1 15
  (k1 * 0x1b873593) % 2 ^ 32

/-- The block loop `for(i = -nblocks; i; i++)` of `murmur3_hash_32`, with `n`
iterations left to run, that is `i = -n`.  `blocks` points at byte `nblocks*4`, so
`blocks[i]` starts at byte `(nblocks - n) * 4`.  The state is `(k1, h1)`: `k1` is
declared outside the loop and keeps its last value when the loop ends. -/
def loop32 (data : List (Fin 256)) (nblocks : Nat) : Nat → Nat × Nat → Nat × Nat
  | 0, s => s
  | n + 1, (_, h1) =>
    let k1 := getblock32 data ((nblocks - (n + 1)) * 4)
    let k1 := mix32_k1 k1
    let h1 := h1 ^^^ k1
    let h1 := rotl32 h1 13
    let h1 := (h1 * 5 + 0xe6546b64) % 2 ^ 32
    loop32 data nblocks n (k1, h1)

/-- The `switch(len & 3)` of `murmur3_hash_32` with its fall-through cases: entering
at `case c` runs every statement of the cases below it.  `toff` is the byte offset
of `tail`; `k1` and `h1` are the variables as the block loop left them. -/
def tail32 (data : List (Fin 256)) (toff c : Nat) (s : Nat × Nat) : Nat × Nat :=
  let (k1, h1) := s
  let k1 := if 3 ≤ c then k1 ^^^ (byteAt data (toff + 2) <<< 16) else k1
  let k1 := if 2 ≤ c then k1 ^^^ (byteAt data (toff + 1) <<< 8) else k1
  if 1 ≤ c then
    let k1 := k1 ^^^ byteAt data toff
    let k1 := mix32_k1 k1
    (k1, h1 ^^^ k1)
  else (k1, h1)

/-- Source `murmur3_hash_32(key, len, seed)`.  `nblocks` is `len / 4` and the block
and tail offsets are exact naturals: that is the `int` arithmetic of the source on
`nblocks` and `nblocks*4` for `len < 2^31` (`murmur3_hash_32_reads` keeps it
explicit); `h1 ^= len` keeps the low 32 bits. -/
def murmur3_hash_32 (key : List (Fin 256)) (len seed : Nat) : Nat :=
  let nblocks := len / 4
  let s := loop32 key nblocks nblocks (0, seed)
  let s := tail32 key (nblocks * 4) (len &&& 3) s
  let h1 := (s.2 ^^^ len) % 2 ^ 32
  fmix h1

/-! ## `murmur3_hash_128` -/

/-- The local variables `k1..k4`, `h1..h4` of `murmur3_hash_128`. -/
structure Lanes32 where
  k1 : Nat
  k2 : Nat
  k3 : Nat
  k4 : Nat
  h1 : Nat
  h2 : Nat
  h3 : Nat
  h4 : Nat
deriving DecidableEq, Repr

/-- `k1 *= c1; k1 = ROTL32(k1,15); k1 *= c2;` with `c1 = 0x239b961b`, `c2 = 0xab0e9789`. -/
def mix128_k1 (k1 : Nat) : Nat :=
  (rotl32 ((k1 * 0x239b961b) % 2 ^ 32) 15 * 0xab0e9789) % 2 ^ 32

/-- `k2 *= c2; k2 = ROTL32(k2,16); k2 *= c3;` with `c2 = 0xab0e9789`, `c3 = 0x38b34ae5`. -/
def mix128_k2 (k2 : Nat) : Nat :=
  (rotl32 ((k2 * 0xab0e9789) % 2 ^ 32) 16 * 0x38b34ae5) % 2 ^ 32

/-- `k3 *= c3; k3 = ROTL32(k3,17); k3 *= c4;` with `c3 = 0x38b34ae5`, `c4 = 0xa1e38b93`. -/
def mix128_k3 (k3 : Nat) : Nat :=
  (rotl32 ((k3 * 0x38b34ae5) % 2 ^ 32) 17 * 0xa1e38b93) % 2 ^ 32

/-- `k4 *= c4; k4 = ROTL32(k4,18); k4 *= c1;` with `c4 = 0xa1e38b93`, `c1 = 0x239b961b`. -/
def mix128_k4 (k4 : Nat) : Nat :=
  (rotl32 ((k4 * 0xa1e38b93) % 2 ^ 32) 18 * 0x239b961b) % 2 ^ 32

/-- One iteration of the block loop of `murmur3_hash_128` on the 16-byte block at
byte offset `off`. -/
def body128 (data : List (Fin 256)) (off : Nat) (s : Lanes32) : Lanes32 :=
  let k1 := getblock32 data off
  let k2 := getblock32 data (off + 4)
  let k3 := getblock32 data (off + 8)
  let k4 := getblock32 data (off + 12)
  let k1 := mix128_k1 k1
  let h1 := s.h1 ^^^ k1
  let h1 := rotl32 h1 19
  let h1 := (h1 + s.h2) % 2 ^ 32
  let h1 := (h1 * 5 + 0x561ccd1b) % 2 ^ 32
  let k2 := mix128_k2 k2
  let h2 := s.h2 ^^^ k2
  let h2 := rotl32 h2 17
  let h2 := (h2 + s.h3) % 2 ^ 32
  let h2 := (h2 * 5 + 0x0bcaa747) % 2 ^ 32
  let k3 := mix128_k3 k3
  let h3 := s.h3 ^^^ k3
  let h3 := rotl32 h3 15
  let h3 := (h3 + s.h4) % 2 ^ 32
  let h3 := (h3 * 5 + 0x96cd1c35) % 2 ^ 32
  let k4 := mix128_k4 k4
  let h4 := s.h4 ^^^ k4
  let h4 := rotl32 h4 13
  let h4 := (h4 + h1) % 2 ^ 32
  let h4 := (h4 * 5 + 0x32ac3b17) % 2 ^ 32
  { k1 := k1, k2 := k2, k3 := k3, k4 := k4, h1 := h1, h2 := h2, h3 := h3, h4 := h4 }

/-- The block loop `for(i = -nblocks; i; i++)` of `murmur3_hash_128`, with `n`
iterations left (`i = -n`).  `blocks` points at byte `nblocks*16`, so `blocks[i*4]`
starts at byte `(nblocks - n) * 16`. -/
def loop128 (data : List (Fin 256)) (nblocks : Nat) : Nat → Lanes32 → Lanes32
  | 0, s => s
  | n + 1, s => loop128 data nblocks n (body128 data ((nblocks - (n + 1)) * 16) s)

/-- The `switch(len & 15)` of `murmur3_hash_128` with its fall-through cases;
`toff` is the byte offset of `tail`.  `tail[j] << 24` is XORed into a 32-bit `k`, so
its low 32 bits count. -/
def tail128 (data : List (Fin 256)) (toff c : Nat) (s : Lanes32) : Lanes32 :=
  let t := fun j => byteAt data (toff + j)
  let k4 := s.k4
  let k4 := if 15 ≤ c then k4 ^^^ (t 14 <<< 16) else k4
  let k4 := if 14 ≤ c then k4 ^^^ (t 13 <<< 8) else k4
  let k4 := if 13 ≤ c then mix128_k4 (k4 ^^^ (t 12 <<< 0)) else k4
  let h4 := if 13 ≤ c then s.h4 ^^^ k4 else s.h4
  let k3 := s.k3
  let k3 := if 12 ≤ c then k3 ^^^ ((t 11 <<< 24) % 2 ^ 32) else k3
  let k3 := if 11 ≤ c then k3 ^^^ (t 10 <<< 16) else k3
  let k3 := if 10 ≤ c then k3 ^^^ (t 9 <<< 8) else k3
  let k3 := if 9 ≤ c then mix128_k3 (k3 ^^^ (t 8 <<< 0)) else k3
  let h3 := if 9 ≤ c then s.h3 ^^^ k3 else s.h3
  let k2 := s.k2
  let k2 := if 8 ≤ c then k2 ^^^ ((t 7 <<< 24) % 2 ^ 32) else k2
  let k2 := if 7 ≤ c then k2 ^^^ (t 6 <<< 16) else k2
  let k2 := if 6 ≤ c then k2 ^^^ (t 5 <<< 8) else k2
  let k2 := if 5 ≤ c then mix128_k2 (k2 ^^^ (t 4 <<< 0)) else k2
  let h2 := if 5 ≤ c then s.h2 ^^^ k2 else s.h2
  let k1 := s.k1
  let k1 := if 4 ≤ c then k1 ^^^ ((t 3 <<< 24) % 2 ^ 32) else k1
  let k1 := if 3 ≤ c then k1 ^^^ (t 2 <<< 16) else k1
  let k1 := if 2 ≤ c then k1 ^^^ (t 1 <<< 8) else k1
  let k1 := if 1 ≤ c then mix128_k1 (k1 ^^^ (t 0 <<< 0)) else k1
  let h1 := if 1 ≤ c then s.h1 ^^^ k1 else s.h1
  { k1 := k1, k2 := k2, k3 := k3, k4 := k4, h1 := h1, h2 := h2, h3 := h3, h4 := h4 }

/-- The two cross-accumulation lines `h1 += h2; h1 += h3; h1 += h4;` and
`h2 += h1; h3 += h1; h4 += h1;` of the finalization of `murmur3_hash_128`. -/
def cross128 (h : Nat × Nat × Nat × Nat) : Nat × Nat × Nat × Nat :=
  let (h1, h2, h3, h4) := h
  let h1 := (h1 + h2) % 2 ^ 32
  let h1 := (h1 + h3) % 2 ^ 32
  let h1 := (h1 + h4) % 2 ^ 32
  (h1, (h2 + h1) % 2 ^ 32, (h3 + h1) % 2 ^ 32, (h4 + h1) % 2 ^ 32)

/-- The lanes `(h1, h2, h3, h4)` of `murmur3_hash_128` when it reaches the block
that builds the result `r`. -/
def murmur3_hash_128_lanes (key : List (Fin 256)) (len seed : Nat) :
    Nat × Nat × Nat × Nat :=
  let nblocks := len / 16
  let s : Lanes32 :=
    { k1 := 0, k2 := 0, k3 := 0, k4 := 0, h1 := seed, h2 := seed, h3 := seed, h4 := seed }
  let s := loop128 key nblocks nblocks s
  let s := tail128 key (nblocks * 16) (len &&& 15) s
  let h := ((s.h1 ^^^ len) % 2 ^ 32, (s.h2 ^^^ len) % 2 ^ 32,
    (s.h3 ^^^ len) % 2 ^ 32, (s.h4 ^^^ len) % 2 ^ 32)
  let (h1, h2, h3, h4) := cross128 h
  cross128 (fmix h1, fmix h2, fmix h3, fmix h4)

/-- The closing block of `murmur3_hash_128`: `r.v[0] = h1; r.v[0] <<= 32; r.v[0] |= h2;`
and `r.v[1] = h1; r.v[1] <<= 32; r.v[1] |= h2;` on 64-bit words `r.v[0]`, `r.v[1]`. -/
def assemble128 (h : Nat × Nat × Nat × Nat) : Nat × Nat :=
  let (h1, h2, _, _) := h
  (((h1 <<< 32) % 2 ^ 64) ||| h2, ((h1 <<< 32) % 2 ^ 64) ||| h2)

/-- Source `murmur3_hash_128(key, len, seed)`; the result is `(r.v[0], r.v[1])`.  The
block and tail offsets are exact naturals: that is the `int` arithmetic of the source
for `len < 2^31` (`murmur3_hash_128_reads` keeps it explicit). -/
def murmur3_hash_128 (key : List (Fin 256)) (len seed : Nat) : Nat × Nat :=
  assemble128 (murmur3_hash_128_lanes key len seed)

/-! ## `murmur3_hash64_128` -/

/-- The local variables `k1`, `k2`, `h1`, `h2` of `murmur3_hash64_128`. -/
structure Lanes64 where
  k1 : Nat
  k2 : Nat
  h1 : Nat
  h2 : Nat
deriving DecidableEq, Repr

/-- `k1 *= c1; k1 = ROTL64(k1,31); k1 *= c2;` with `c1 = 0x87c37b91114253d5` and
`c2 = 0x4cf5ad432745937f`. -/
def mix64_k1 (k1 : Nat) : Nat :=
  (rotl64 ((k1 * 0x87c37b91114253d5) % 2 ^ 64) 31 * 0x4cf5ad432745937f) % 2 ^ 64

/-- `k2 *= c2; k2 = ROTL64(k2,33); k2 *= c1;` with the same `c1`, `c2`. -/
def mix64_k2 (k2 : Nat) : Nat :=
  (rotl64 ((k2 * 0x4cf5ad432745937f) % 2 ^ 64) 33 * 0x87c37b91114253d5) % 2 ^ 64

/-- One iteration of the block loop of `murmur3_hash64_128`, on block `i`:
`blocks[i*2+0]` starts at byte `i*16` and `blocks[i*2+1]` at byte `i*16 + 8`. -/
def body64 (data : List (Fin 256)) (i : Nat) (s : Lanes64) : Lanes64 :=
  let k1 := getblock64 data ((i * 2 + 0) * 8)
  let k2 := getblock64 data ((i * 2 + 1) * 8)
  let k1 := mix64_k1 k1
  let h1 := s.h1 ^^^ k1
  let h1 := rotl64 h1 27
  let h1 := (h1 + s.h2) % 2 ^ 64
  let h1 := (h1 * 5 + 0x52dce729) % 2 ^ 64
  let k2 := mix64_k2 k2
  let h2 := s.h2 ^^^ k2
  let h2 := rotl64 h2 31
  let h2 := (h2 + h1) % 2 ^ 64
  let h2 := (h2 * 5 + 0x38495ab5) % 2 ^ 64
  { k1 := k1, k2 := k2, h1 := h1, h2 := h2 }

/-- The block loop `for(i = 0; i < nblocks; i++)` of `murmur3_hash64_128`, with `n`
iterations left, that is `i = nblocks - n`. -/
def loop64 (data : List (Fin 256)) (nblocks : Nat) : Nat → Lanes64 → Lanes64
  | 0, s => s
  | n + 1, s => loop64 data nblocks n (body64 data (nblocks - (n + 1)) s)

/-- The `switch(len & 15)` of `murmur3_hash64_128` with its fall-through cases;
`toff` is the byte offset of `tail`. -/
def tail64 (data : List (Fin 256)) (toff c : Nat) (s : Lanes64) : Lanes64 :=
  let t := fun j => byteAt data (toff + j)
  let k2 := s.k2
  let k2 := if 15 ≤ c then k2 ^^^ (t 14 <<< 48) else k2
  let k2 := if 14 ≤ c then k2 ^^^ (t 13 <<< 40) else k2
  let k2 := if 13 ≤ c then k2 ^^^ (t 12 <<< 32) else k2
  let k2 := if 12 ≤ c then k2 ^^^ (t 11 <<< 24) else k2
  let k2 := if 11 ≤ c then k2 ^^^ (t 10 <<< 16) else k2
  let k2 := if 10 ≤ c then k2 ^^^ (t 9 <<< 8) else k2
  let k2 := if 9 ≤ c then mix64_k2 (k2 ^^^ (t 8 <<< 0)) else k2
  let h2 := if 9 ≤ c then s.h2 ^^^ k2 else s.h2
  let k1 := s.k1
  let k1 := if 8 ≤ c then k1 ^^^ (t 7 <<< 56) else k1
  let k1 := if 7 ≤ c then k1 ^^^ (t 6 <<< 48) else k1
  let k1 := if 6 ≤ c then k1 ^^^ (t 5 <<< 40) else k1
  let k1 := if 5 ≤ c then k1 ^^^ (t 4 <<< 32) else k1
  let k1 := if 4 ≤ c then k1 ^^^ (t 3 <<< 24) else k1
  let k1 := if 3 ≤ c then k1 ^^^ (t 2 <<< 16) else k1
  let k1 := if 2 ≤ c then k1 ^^^ (t 1 <<< 8) else k1
  let k1 := if 1 ≤ c then mix64_k1 (k1 ^^^ (t 0 <<< 0)) else k1
  let h1 := if 1 ≤ c then s.h1 ^^^ k1 else s.h1
  { k1 := k1, k2 := k2, h1 := h1, h2 := h2 }

/-- The finalization of `murmur3_hash64_128` from `h1 ^= len; h2 ^= len;` to the end;
`len` is a 64-bit `size_t`. -/
def final64 (h1 h2 len : Nat) : Nat × Nat :=
  let h1 := (h1 ^^^ len) % 2 ^ 64
  let h2 := (h2 ^^^ len) % 2 ^ 64
  let h1 := (h1 + h2) % 2 ^ 64
  let h2 := (h2 + h1) % 2 ^ 64
  let h1 := fmix64 h1
  let h2 := fmix64 h2
  let h1 := (h1 + h2) % 2 ^ 64
  let h2 := (h2 + h1) % 2 ^ 64
  (h1, h2)

/-- Source `murmur3_hash64_128(key, len, seed)`; the result is `(r.v[0], r.v[1])`.
`uint64_t h1 = seed` zero-extends the 32-bit seed.  The block and tail offsets are
exact naturals: that is the `int` arithmetic of the source for `len < 2^31`
(`murmur3_hash64_128_reads` keeps it explicit). -/
def murmur3_hash64_128 (key : List (Fin 256)) (len seed : Nat) : Nat × Nat :=
  let nblocks := len / 16
  let s : Lanes64 := { k1 := 0, k2 := 0, h1 := seed, h2 := seed }
  let s := loop64 key nblocks nblocks s
  let s := tail64 key (nblocks * 16) (len &&& 15) s
  final64 s.h1 s.h2 len

/-! ## Xoroshiro128+ -/

/-- Source `xoro128plus`: the generator state, two 64-bit words. -/
structure xoro128plus where
  v0 : Nat
  v1 : Nat
deriving DecidableEq, Repr

/-- Modelled from the spec: `rotl` of `utils/utils.h` is not among the sources; the
spec names it `rotate_left` on the 64-bit state words. -/
def rotl (x r : Nat) : Nat :=
  ((x <<< r) % 2 ^ 64) ||| (x >>> (64 - r))

/-- Source `xoro128plus_init(s, seed)`.  The two external calls are parameters:
`makeseed` is the value `makeseed()` returns, and `splitmix64 x` is the pair of the
value `splitmix64(&seed)` returns and the value it leaves in `seed`, when `seed`
holds `x` at the call. -/
def xoro128plus_init (makeseed : Nat) (splitmix64 : Nat → Nat × Nat) (seed : Nat) :
    xoro128plus :=
  let seed := if seed = 0 then makeseed else seed
  let v0 := seed
  let (r, _) := splitmix64 seed
  { v0 := v0, v1 := r }

/-- Source `xoro128plus_u64(s)`: the returned value and the state it leaves in `*s`. -/
def xoro128plus_u64 (s : xoro128plus) : Nat × xoro128plus :=
  let v0 := s.v0
  let v1 := s.v1
  let r := (v0 + v1) % 2 ^ 64
  let v1 := v1 ^^^ v0
  (r, { v0 := rotl v0 55 ^^^ v1 ^^^ ((v1 <<< 14) % 2 ^ 64), v1 := rotl v1 36 })

/-- The state after `n` calls of `xoro128plus_u64`. -/
def xoro128plus_steps : Nat → xoro128plus → xoro128plus
  | 0, s => s
  | n + 1, s => xoro128plus_steps n (xoro128plus_u64 s).2

/-- Both state words are 64-bit values, as the type `uint64_t` of the fields says. -/
def xoro128plus.inRange (s : xoro128plus) : Prop :=
  s.v0 < 2 ^ 64 ∧ s.v1 < 2 ^ 64

/-! ## The algorithms as the specification words them

These definitions follow the specification, not the C text: the buffer is consumed
front to back, whole blocks first, and the partial word of the tail is built from
the trailing bytes alone.  They are compared with the source functions above. -/

/-- Little-endian word of a run of bytes: byte 0 at shift 0, byte 1 at shift 8,
byte 2 at shift 16, and so on. -/
def spec_le_word : List (Fin 256) → Nat
  | [] => 0
  | b :: bs => b.val ||| (spec_le_word bs <<< 8)

/-- Specification, 32-bit digest, the block part: `n` complete 4-byte blocks of
`data` are folded into `h1`; what is left of the buffer is returned with it. -/
def spec_blocks_32 : Nat → List (Fin 256) → Nat → Nat × List (Fin 256)
  | 0, data, h1 => (h1, data)
  | n + 1, data, h1 =>
    let k := spec_le_word (data.take 4)
    let k := (k * 0xcc9e2d51) % 2 ^ 32
    let k := rotl32 k 15
    let k := (k * 0x1b873593) % 2 ^ 32
    let h1 := h1 ^^^ k
    let h1 := rotl32 h1 13
    let h1 := (h1 * 5 + 0xe6546b64) % 2 ^ 32
    spec_blocks_32 n (data.drop 4) h1

/-- Specification, 32-bit digest: blocks, then the 1 to 3 trailing bytes as a
partial block that is mixed and XORed into `h1` without the `h1*5+const` step, then
`fmix (h1 XOR len)`. -/
def spec_murmur3_32 (data : List (Fin 256)) (seed : Nat) : Nat :=
  let (h1, rest) := spec_blocks_32 (data.length / 4) data seed
  let h1 :=
    if rest.length = 0 then h1
    else
      let k := spec_le_word rest
      let k := (k * 0xcc9e2d51) % 2 ^ 32
      let k := rotl32 k 15
      let k := (k * 0x1b873593) % 2 ^ 32
      h1 ^^^ k
  fmix ((h1 ^^^ data.length) % 2 ^ 32)

/-- Specification, 64-bit-lane digest: one lane word through multiply by `a`, rotate
by `r`, multiply by `b`. -/
def spec_mix_64 (a r b k : Nat) : Nat :=
  (rotl64 ((k * a) % 2 ^ 64) r * b) % 2 ^ 64

/-- Specification, 64-bit-lane digest, the block part on `n` complete 16-byte
blocks read as two little-endian 64-bit words. -/
def spec_blocks_64 : Nat → List (Fin 256) → Nat × Nat → (Nat × Nat) × List (Fin 256)
  | 0, data, h => (h, data)
  | n + 1, data, (h1, h2) =>
    let k1 := spec_le_word (data.take 8)
    let k2 := spec_le_word ((data.drop 8).take 8)
    let h1 := h1 ^^^ spec_mix_64 0x87c37b91114253d5 31 0x4cf5ad432745937f k1
    let h1 := rotl64 h1 27
    let h1 := (h1 + h2) % 2 ^ 64
    let h1 := (h1 * 5 + 0x52dce729) % 2 ^ 64
    let h2 := h2 ^^^ spec_mix_64 0x4cf5ad432745937f 33 0x87c37b91114253d5 k2
    let h2 := rotl64 h2 31
    let h2 := (h2 + h1) % 2 ^ 64
    let h2 := (h2 * 5 + 0x38495ab5) % 2 ^ 64
    spec_blocks_64 n (data.drop 16) (h1, h2)

/-- Specification, 64-bit-lane digest: blocks; lane 2 from trailing bytes 8..14 and
lane 1 from trailing bytes 0..7, each mixed once and XORed into its `h`; then the
finalization. -/
def spec_murmur3_64_128 (data : List (Fin 256)) (seed : Nat) : Nat × Nat :=
  let ((h1, h2), rest) := spec_blocks_64 (data.length / 16) data (seed, seed)
  let h2 :=
    if 8 < rest.length then
      h2 ^^^ spec_mix_64 0x4cf5ad432745937f 33 0x87c37b91114253d5 (spec_le_word (rest.drop 8))
    else h2
  let h1 :=
    if 0 < rest.length then
      h1 ^^^ spec_mix_64 0x87c37b91114253d5 31 0x4cf5ad432745937f (spec_le_word (rest.take 8))
    else h1
  let h1 := (h1 ^^^ data.length) % 2 ^ 64
  let h2 := (h2 ^^^ data.length) % 2 ^ 64
  let h1 := (h1 + h2) % 2 ^ 64
  let h2 := (h2 + h1) % 2 ^ 64
  let h1 := fmix64 h1
  let h2 := fmix64 h2
  let h1 := (h1 + h2) % 2 ^ 64
  let h2 := (h2 + h1) % 2 ^ 64
  (h1, h2)

/-- Specification, 32-bit-lane digest: one lane word through multiply by `a`, rotate
by `r`, multiply by `b`. -/
def spec_mix_32 (a r b k : Nat) : Nat :=
  (rotl32 ((k * a) % 2 ^ 32) r * b) % 2 ^ 32

/-- Specification, 32-bit-lane digest: after lane `i` is mixed into `h`, `h` is
rotated by `r`, accumulates the next lane `hn`, then `h = h*5 + c`. -/
def spec_lane_32 (r c h k hn : Nat) : Nat :=
  (((rotl32 (h ^^^ k) r + hn) % 2 ^ 32) * 5 + c) % 2 ^ 32

/-- Specification, 32-bit-lane digest, the block part on `n` complete 16-byte
blocks read as four little-endian 32-bit lanes; the lane constants are those of the
source. -/
def spec_blocks_128 : Nat → List (Fin 256) → Nat × Nat × Nat × Nat →
    (Nat × Nat × Nat × Nat) × List (Fin 256)
  | 0, data, h => (h, data)
  | n + 1, data, (h1, h2, h3, h4) =>
    let k1 := spec_le_word (data.take 4)
    let k2 := spec_le_word ((data.drop 4).take 4)
    let k3 := spec_le_word ((data.drop 8).take 4)
    let k4 := spec_le_word ((data.drop 12).take 4)
    let h1 := spec_lane_32 19 0x561ccd1b h1 (spec_mix_32 0x239b961b 15 0xab0e9789 k1) h2
    let h2 := spec_lane_32 17 0x0bcaa747 h2 (spec_mix_32 0xab0e9789 16 0x38b34ae5 k2) h3
    let h3 := spec_lane_32 15 0x96cd1c35 h3 (spec_mix_32 0x38b34ae5 17 0xa1e38b93 k3) h4
    let h4 := spec_lane_32 13 0x32ac3b17 h4 (spec_mix_32 0xa1e38b93 18 0x239b961b k4) h1
    spec_blocks_128 n (data.drop 16) (h1, h2, h3, h4)

/-- Specification, 32-bit-lane digest, cross-accumulation: lane 1 accumulates lanes
2, 3 and 4, then each other lane accumulates the new lane 1. -/
def spec_cross_128 (h : Nat × Nat × Nat × Nat) : Nat × Nat × Nat × Nat :=
  let h1 := (h.1 + h.2.1 + h.2.2.1 + h.2.2.2) % 2 ^ 32
  (h1, (h.2.1 + h1) % 2 ^ 32, (h.2.2.1 + h1) % 2 ^ 32, (h.2.2.2 + h1) % 2 ^ 32)

/-- Specification, 32-bit-lane digest: blocks; the trailing bytes folded from lane 4
down to lane 1, each partial word built from that lane's own trailing bytes; XOR
with the length, cross-accumulate, `fmix`, cross-accumulate; both output words are
`(h1 << 32) | h2`. -/
def spec_murmur3_128 (data : List (Fin 256)) (seed : Nat) : Nat × Nat :=
  let ((h1, h2, h3, h4), rest) :=
    spec_blocks_128 (data.length / 16) data (seed, seed, seed, seed)
  let h4 := if 12 < rest.length then
    h4 ^^^ spec_mix_32 0xa1e38b93 18 0x239b961b (spec_le_word (rest.drop 12)) else h4
  let h3 := if 8 < rest.length then
    h3 ^^^ spec_mix_32 0x38b34ae5 17 0xa1e38b93 (spec_le_word ((rest.drop 8).take 4)) else h3
  let h2 := if 4 < rest.length then
    h2 ^^^ spec_mix_32 0xab0e9789 16 0x38b34ae5 (spec_le_word ((rest.drop 4).take 4)) else h2
  let h1 := if 0 < rest.length then
    h1 ^^^ spec_mix_32 0x239b961b 15 0xab0e9789 (spec_le_word (rest.take 4)) else h1
  let len := data.length
  let h := spec_cross_128 ((h1 ^^^ len) % 2 ^ 32, (h2 ^^^ len) % 2 ^ 32,
    (h3 ^^^ len) % 2 ^ 32, (h4 ^^^ len) % 2 ^ 32)
  let h := spec_cross_128 (fmix h.1, fmix h.2.1, fmix h.2.2.1, fmix h.2.2.2)
  (((h.1 <<< 32) % 2 ^ 64) ||| h.2.1, ((h.1 <<< 32) % 2 ^ 64) ||| h.2.1)


/-! ## Concrete buffers -/

/-- The five bytes of the string hello. -/
def hello : List (Fin 256) := [0x68, 0x65, 0x6c, 0x6c, 0x6f]

/-- A six-byte buffer: one complete 4-byte block and two trailing bytes. -/
def bytes6 : List (Fin 256) := [1, 2, 3, 4, 5, 6]

/-- A 17-byte buffer: one complete 16-byte block and one trailing byte. -/
def bytes17 : List (Fin 256) :=
  [1, 2, 3, 4, 5, 6, 7, 8, 9, 10, 11, 12, 13, 14, 15, 16, 17]

/-- A 26-byte buffer: one complete 16-byte block and ten trailing bytes. -/
def bytes26 : List (Fin 256) :=
  [0x61, 0x62, 0x63, 0x64, 0x65, 0x66, 0x67, 0x68, 0x69, 0x6a, 0x6b, 0x6c, 0x6d,
   0x6e, 0x6f, 0x70, 0x71, 0x72, 0x73, 0x74, 0x75, 0x76, 0x77, 0x78, 0x79, 0x7a]

/-- A stand-in for the seed-expansion mixer that advances the seed word by an odd
constant and returns a multiple of the advanced word. -/
def sample_mixer (x : Nat) : Nat × Nat :=
  let z := (x + 0x9e3779b97f4a7c15) % 2 ^ 64
  ((z * 3) % 2 ^ 64, z)

/-- The values the first `n` calls of `xoro128plus_u64` return, in order. -/
def xoro128plus_outputs : Nat → xoro128plus → List Nat
  | 0, _ => []
  | n + 1, s => (xoro128plus_u64 s).1 :: xoro128plus_outputs n (xoro128plus_u64 s).2

/-! ## The computations with the tail words carried over from the block loop

These follow the wording "the tail's partial word starts from the value the block
loop left": the block part also hands on the mixed word(s) of the last complete
block, and the trailing bytes are XORed into them. -/

/-- The block part of the 32-bit digest on `n` complete blocks, handing on next to
`h1` the word of the last block after multiply by `c1`, rotate by 15, multiply by
`c2` (the word passed in when `n = 0`). -/
def carry_blocks_32 : Nat → List (Fin 256) → Nat × Nat → (Nat × Nat) × List (Fin 256)
  | 0, data, s => (s, data)
  | n + 1, data, (_, h1) =>
    let k := spec_le_word (data.take 4)
    let k := (k * 0xcc9e2d51) % 2 ^ 32
    let k := rotl32 k 15
    let k := (k * 0x1b873593) % 2 ^ 32
    let h1 := h1 ^^^ k
    let h1 := rotl32 h1 13
    let h1 := (h1 * 5 + 0xe6546b64) % 2 ^ 32
    carry_blocks_32 n (data.drop 4) (k, h1)

/-- The 32-bit digest with the carried tail word: blocks; the 1 to 3 trailing bytes
XORed into the word the last block left (0 without a block), that word mixed and
XORed into `h1`; then `fmix (h1 XOR len)`. -/
def carry_murmur3_32 (data : List (Fin 256)) (seed : Nat) : Nat :=
  let ((k, h1), rest) := carry_blocks_32 (data.length / 4) data (0, seed)
  let h1 :=
    if rest.length = 0 then h1
    else
      let k := k ^^^ spec_le_word rest
      let k := (k * 0xcc9e2d51) % 2 ^ 32
      let k := rotl32 k 15
      let k := (k * 0x1b873593) % 2 ^ 32
      h1 ^^^ k
  fmix ((h1 ^^^ data.length) % 2 ^ 32)

/-- The block part of the 64-bit-lane digest on `n` complete 16-byte blocks, handing
on next to `(h1, h2)` the two mixed words `(k1, k2)` of the last block (the pair passed
in when `n = 0`). -/
def carry_blocks_64 : Nat → List (Fin 256) → (Nat × Nat) × (Nat × Nat) →
    ((Nat × Nat) × (Nat × Nat)) × List (Fin 256)
  | 0, data, s => (s, data)
  | n + 1, data, (_, (h1, h2)) =>
    let k1 := spec_mix_64 0x87c37b91114253d5 31 0x4cf5ad432745937f (spec_le_word (data.take 8))
    let k2 := spec_mix_64 0x4cf5ad432745937f 33 0x87c37b91114253d5
      (spec_le_word ((data.drop 8).take 8))
    let h1 := h1 ^^^ k1
    let h1 := rotl64 h1 27
    let h1 := (h1 + h2) % 2 ^ 64
    let h1 := (h1 * 5 + 0x52dce729) % 2 ^ 64
    let h2 := h2 ^^^ k2
    let h2 := rotl64 h2 31
    let h2 := (h2 + h1) % 2 ^ 64
    let h2 := (h2 * 5 + 0x38495ab5) % 2 ^ 64
    carry_blocks_64 n (data.drop 16) ((k1, k2), (h1, h2))

/-- The 64-bit-lane digest with the carried tail words: blocks; trailing bytes 8..14
XORed into the carried `k2` (only when 9 to 15 bytes remain) and trailing bytes 0..7
into the carried `k1`, each word mixed once and XORed into its `h`; then the
finalization. -/
def carry_murmur3_64_128 (data : List (Fin 256)) (seed : Nat) : Nat × Nat :=
  let (((k1, k2), (h1, h2)), rest) :=
    carry_blocks_64 (data.length / 16) data ((0, 0), (seed, seed))
  let h2 :=
    if 8 < rest.length then
      h2 ^^^ spec_mix_64 0x4cf5ad432745937f 33 0x87c37b91114253d5
        (k2 ^^^ spec_le_word (rest.drop 8))
    else h2
  let h1 :=
    if 0 < rest.length then
      h1 ^^^ spec_mix_64 0x87c37b91114253d5 31 0x4cf5ad432745937f
        (k1 ^^^ spec_le_word (rest.take 8))
    else h1
  let h1 := (h1 ^^^ data.length) % 2 ^ 64
  let h2 := (h2 ^^^ data.length) % 2 ^ 64
  let h1 := (h1 + h2) % 2 ^ 64
  let h2 := (h2 + h1) % 2 ^ 64
  let h1 := fmix64 h1
  let h2 := fmix64 h2
  let h1 := (h1 + h2) % 2 ^ 64
  let h2 := (h2 + h1) % 2 ^ 64
  (h1, h2)

/-! ## Byte offsets read

The offsets, relative to `key`, of the bytes each hash function reads, with the
`int` arithmetic of the source made explicit.  An offset is an integer: a negative
one lies before the start of the buffer. -/

/-- The value a C `int` takes for the mathematical result `z` of an `int` operation
or of a conversion to `int`: the low 32 bits of `z` read as two's complement. -/
def wrap_int (z : Int) : Int :=
  (z + 2 ^ 31) % 2 ^ 32 - 2 ^ 31

/-- The four byte offsets `getblock(p, i)` reads for a 32-bit word that starts at
byte offset `off`. -/
def getblock32_reads (off : Int) : List Int :=
  [off, off + 1, off + 2, off + 3]

/-- The eight byte offsets `getblock(p, i)` reads for a 64-bit word that starts at
byte offset `off`. -/
def getblock64_reads (off : Int) : List Int :=
  getblock32_reads off ++ getblock32_reads (off + 4)

/-- Offsets read by the block loop `for(i = -nblocks; i; i++)` of `murmur3_hash_32`
with `n` iterations left (`i = -n`): `blocks` points at byte offset `base` and
`blocks[i]` is the 32-bit word at byte `base + 4*i`. -/
def loop32_reads (base : Int) : Nat → List Int
  | 0 => []
  | n + 1 => getblock32_reads (base + 4 * (-((n : Int) + 1))) ++ loop32_reads base n

/-- Offsets read by the `switch(len & 3)` of `murmur3_hash_32`, entered at `case c`,
in the order of the fall-through; `tail` points at byte offset `toff`. -/
def tail32_reads (toff : Int) (c : Nat) : List Int :=
  (if 3 ≤ c then [toff + 2] else []) ++ (if 2 ≤ c then [toff + 1] else []) ++
    (if 1 ≤ c then [toff] else [])

/-- The offsets `murmur3_hash_32(key, len, seed)` reads: those of the block loop and
those of the tail switch.  `const int nblocks = len / 4` converts to `int`, and
`data + nblocks*4` multiplies in `int`.  The loop is modelled for `nblocks ≥ 0`. -/
def murmur3_hash_32_reads (len : Nat) : List Int × List Int :=
  let nblocks := wrap_int ((len / 4 : Nat) : Int)
  let base := wrap_int (nblocks * 4)
  (loop32_reads base nblocks.toNat, tail32_reads base (len &&& 3))

/-- Offsets read by the block loop `for(i = -nblocks; i; i++)` of `murmur3_hash_128`
with `n` iterations left (`i = -n`): the word indices `i*4+0 .. i*4+3` are computed
in `int`, and `blocks[j]` is the 32-bit word at byte `base + 4*j`. -/
def loop128_reads (base : Int) : Nat → List Int
  | 0 => []
  | n + 1 =>
    getblock32_reads (base + 4 * wrap_int (-((n : Int) + 1) * 4 + 0)) ++
      getblock32_reads (base + 4 * wrap_int (-((n : Int) + 1) * 4 + 1)) ++
      getblock32_reads (base + 4 * wrap_int (-((n : Int) + 1) * 4 + 2)) ++
      getblock32_reads (base + 4 * wrap_int (-((n : Int) + 1) * 4 + 3)) ++
      loop128_reads base n

/-- Offsets read by the `switch(len & 15)` of `murmur3_hash_128` and of
`murmur3_hash64_128`, entered at `case c`, in the order of the fall-through: both
switches read `tail[c-1]` down to `tail[0]`; `tail` points at byte offset `toff`. -/
def tail16_reads (toff : Int) (c : Nat) : List Int :=
  (if 15 ≤ c then [toff + 14] else []) ++ (if 14 ≤ c then [toff + 13] else []) ++
    (if 13 ≤ c then [toff + 12] else []) ++ (if 12 ≤ c then [toff + 11] else []) ++
    (if 11 ≤ c then [toff + 10] else []) ++ (if 10 ≤ c then [toff + 9] else []) ++
    (if 9 ≤ c then [toff + 8] else []) ++ (if 8 ≤ c then [toff + 7] else []) ++
    (if 7 ≤ c then [toff + 6] else []) ++ (if 6 ≤ c then [toff + 5] else []) ++
    (if 5 ≤ c then [toff + 4] else []) ++ (if 4 ≤ c then [toff + 3] else []) ++
    (if 3 ≤ c then [toff + 2] else []) ++ (if 2 ≤ c then [toff + 1] else []) ++
    (if 1 ≤ c then [toff] else [])

/-- The offsets `murmur3_hash_128(key, len, seed)` reads: block loop and tail switch.
`const int nblocks = len / 16` converts to `int`, and `data + nblocks*16` multiplies
in `int`.  The loop is modelled for `nblocks ≥ 0`. -/
def murmur3_hash_128_reads (len : Nat) : List Int × List Int :=
  let nblocks := wrap_int ((len / 16 : Nat) : Int)
  let base := wrap_int (nblocks * 16)
  (loop128_reads base nblocks.toNat, tail16_reads base (len &&& 15))

/-- Offsets read by the block loop `for(i = 0; i < nblocks; i++)` of
`murmur3_hash64_128` with `n` iterations left (`i = nblocks - n`): the word indices
`i*2+0` and `i*2+1` are computed in `int`, `blocks` is `data`, and `blocks[j]` is the
64-bit word at byte `8*j`. -/
def loop64_reads (nblocks : Int) : Nat → List Int
  | 0 => []
  | n + 1 =>
    getblock64_reads (8 * wrap_int ((nblocks - ((n : Int) + 1)) * 2 + 0)) ++
      getblock64_reads (8 * wrap_int ((nblocks - ((n : Int) + 1)) * 2 + 1)) ++
      loop64_reads nblocks n

/-- The offsets `murmur3_hash64_128(key, len, seed)` reads: block loop and tail
switch.  `const int nblocks = len / 16` converts to `int`, and `data + nblocks*16`
multiplies in `int`. -/
def murmur3_hash64_128_reads (len : Nat) : List Int × List Int :=
  let nblocks := wrap_int ((len / 16 : Nat) : Int)
  (loop64_reads nblocks nblocks.toNat, tail16_reads (wrap_int (nblocks * 16)) (len &&& 15))

/-! ## Bitwise facts -/

theorem lor_eq_zero {a b : Nat} (h : a ||| b = 0) : a = 0 ∧ b = 0 := by
  constructor <;> apply Nat.eq_of_testBit_eq <;> intro i <;>
    have hi := congrArg (fun n => Nat.testBit n i) h <;>
    simp only [Nat.testBit_or, Nat.zero_testBit, Bool.or_eq_false_iff] at hi ⊢
  · exact hi.1
  · exact hi.2

theorem rotl_eq_zero {x r : Nat} (h : rotl x r = 0) : x = 0 := by
  unfold rotl at h
  obtain ⟨h1, h2⟩ := lor_eq_zero h
  rw [Nat.shiftRight_eq_div_pow] at h2
  rw [Nat.shiftLeft_eq] at h1
  have hx : x < 2 ^ (64 - r) := by
    exact (Nat.div_eq_zero_iff (Nat.two_pow_pos _)).1 h2
  by_cases hr : r ≤ 64
  · have hlt : x * 2 ^ r < 2 ^ 64 := by
      calc x * 2 ^ r < 2 ^ (64 - r) * 2 ^ r :=
            Nat.mul_lt_mul_of_pos_right hx (Nat.two_pow_pos _)
        _ = 2 ^ 64 := by rw [← pow_add]; congr 1; omega
    rw [Nat.mod_eq_of_lt hlt] at h1
    rcases Nat.mul_eq_zero.1 h1 with h0 | h0
    · exact h0
    · exact absurd h0 (Nat.pos_iff_ne_zero.1 (Nat.two_pow_pos _))
  · have h0 : 64 - r = 0 := by omega
    rw [h0] at hx
    omega

theorem rotl_eq_rotl64 (x r : Nat) : rotl x r = rotl64 x r := rfl

theorem rotl_lt {x : Nat} (r : Nat) (hx : x < 2 ^ 64) : rotl x r < 2 ^ 64 := by
  unfold rotl
  apply Nat.or_lt_two_pow (Nat.mod_lt _ (by decide))
  rw [Nat.shiftRight_eq_div_pow]
  exact lt_of_le_of_lt (Nat.div_le_self _ _) hx

/-- The step keeps both state words within 64 bits. -/
theorem xoro128plus_u64_inRange (s : xoro128plus) (h : s.inRange) :
    (xoro128plus_u64 s).2.inRange := by
  obtain ⟨h0, h1⟩ := h
  have hx : s.v1 ^^^ s.v0 < 2 ^ 64 := Nat.xor_lt_two_pow h1 h0
  constructor
  · exact Nat.xor_lt_two_pow (Nat.xor_lt_two_pow (rotl_lt 55 h0) hx)
      (Nat.mod_lt _ (by decide))
  · exact rotl_lt 36 hx

/-- A step that lands on the all-zero state started from the all-zero state. -/
theorem xoro128plus_u64_eq_zero {s : xoro128plus}
    (h : (xoro128plus_u64 s).2 = { v0 := 0, v1 := 0 }) : s = { v0 := 0, v1 := 0 } := by
  obtain ⟨v0, v1⟩ := s
  simp only [xoro128plus_u64, xoro128plus.mk.injEq] at h
  obtain ⟨ha, hb⟩ := h
  have hx : v1 ^^^ v0 = 0 := rotl_eq_zero hb
  rw [hx] at ha
  simp only [Nat.xor_zero, Nat.zero_shiftLeft, Nat.zero_mod] at ha
  have h0 : v0 = 0 := rotl_eq_zero ha
  subst h0
  simp only [Nat.xor_zero] at hx
  subst hx
  rfl

theorem xoro128plus_steps_ne_zero (n : Nat) :
    ∀ s : xoro128plus, s ≠ { v0 := 0, v1 := 0 } →
      xoro128plus_steps n s ≠ { v0 := 0, v1 := 0 } := by
  induction n with
  | zero => intro s hs; exact hs
  | succ n ih =>
    intro s hs
    exact ih _ (fun h => hs (xoro128plus_u64_eq_zero h))


/-! ## Claims on `murmur3_hash_32` -/

/-- C1: on the six-byte buffer `bytes6` with seed 1 the source function returns
1909389969 while the algorithm of the specification gives 3833383538: the tail
switch XORs the two trailing bytes into the `k1` the block loop left behind, not
into a fresh partial block. -/
theorem murmur3_hash_32_tail_keeps_k1 :
    murmur3_hash_32 bytes6 6 1 = 1909389969 ∧ spec_murmur3_32 bytes6 1 = 3833383538 ∧
      (loop32 bytes6 1 1 (0, 1)).1 = mix32_k1 (getblock32 bytes6 0) ∧
      (loop32 bytes6 1 1 (0, 1)).1 ≠ 0 := by
  decide

/-- C2: on the five bytes of hello with seed 0 the source function returns
0x46ff1ddb, while the algorithm of the specification gives the reference digest
0x248bfa47. -/
theorem murmur3_hash_32_hello :
    murmur3_hash_32 hello 5 0 = 0x46ff1ddb ∧ murmur3_hash_32 hello 5 0 ≠ 0x248bfa47 ∧
      spec_murmur3_32 hello 0 = 0x248bfa47 := by
  decide

/-- C5: with length 0 and a 32-bit seed, `murmur3_hash_32` returns `fmix seed`
whatever the buffer holds: the block loop and the tail switch leave `(k1, h1)` as
initialised. -/
theorem murmur3_hash_32_len_zero (key : List (Fin 256)) (seed : Nat) (hseed : seed < 2 ^ 32) :
    murmur3_hash_32 key 0 seed = fmix seed ∧
      loop32 key (0 / 4) (0 / 4) (0, seed) = (0, seed) ∧
      tail32 key (0 / 4 * 4) (0 &&& 3) (0, seed) = (0, seed) := by
  refine ⟨?_, rfl, rfl⟩
  have h : murmur3_hash_32 key 0 seed = fmix ((seed ^^^ 0) % 2 ^ 32) := rfl
  rw [h, Nat.xor_zero, Nat.mod_eq_of_lt hseed]

theorem murmur3_hash_32_len_zero_witness :
    murmur3_hash_32 hello 0 0x9747b28c = fmix 0x9747b28c ∧
      loop32 hello (0 / 4) (0 / 4) (0, 0x9747b28c) = (0, 0x9747b28c) ∧
      tail32 hello (0 / 4 * 4) (0 &&& 3) (0, 0x9747b28c) = (0, 0x9747b28c) :=
  murmur3_hash_32_len_zero hello 0x9747b28c (by decide)

/-- C6: on the empty buffer with seed 0 the three hash functions return the all-zero
digests: 0, (0, 0) and (0, 0). -/
theorem murmur3_empty_seed_zero :
    murmur3_hash_32 [] 0 0 = 0 ∧ murmur3_hash_128 [] 0 0 = (0, 0) ∧
      murmur3_hash64_128 [] 0 0 = (0, 0) := by
  decide

/-! ## Claims on the 128-bit hashes -/

/-- C3: on the 17-byte buffer `bytes17` with seed 0 the source function
`murmur3_hash64_128` and the algorithm of the specification disagree: the tail
switch XORs the trailing byte into the `k1` left by the block loop. -/
theorem murmur3_hash64_128_tail_keeps_k :
    murmur3_hash64_128 bytes17 17 0 = (7471043655947573199, 4230864205887741847) ∧
      spec_murmur3_64_128 bytes17 0 = (17448251245480408747, 743362165327059590) ∧
      (loop64 bytes17 1 1 { k1 := 0, k2 := 0, h1 := 0, h2 := 0 }).k1 =
        mix64_k1 (getblock64 bytes17 0) ∧
      (loop64 bytes17 1 1 { k1 := 0, k2 := 0, h1 := 0, h2 := 0 }).k1 ≠ 0 := by
  decide

/-- C4: on the 26-byte buffer `bytes26` with seed 0 the source function
`murmur3_hash_128` and the algorithm of the specification disagree: the tail switch
XORs the trailing bytes into the `k1..k3` left by the block loop. -/
theorem murmur3_hash_128_tail_keeps_k :
    murmur3_hash_128 bytes26 26 0 = (4834675008458964508, 4834675008458964508) ∧
      spec_murmur3_128 bytes26 0 = (4482214209533194086, 4482214209533194086) ∧
      (loop128 bytes26 1 1
          { k1 := 0, k2 := 0, k3 := 0, k4 := 0, h1 := 0, h2 := 0, h3 := 0, h4 := 0 }).k1 =
        mix128_k1 (getblock32 bytes26 0) ∧
      (loop128 bytes26 1 1
          { k1 := 0, k2 := 0, k3 := 0, k4 := 0, h1 := 0, h2 := 0, h3 := 0, h4 := 0 }).k1 ≠ 0 := by
  decide


theorem cross128_fst_lt (h : Nat × Nat × Nat × Nat) : (cross128 h).1 < 2 ^ 32 := by
  obtain ⟨a, b, c, d⟩ := h
  exact Nat.mod_lt _ (by decide)

theorem murmur3_hash_128_lanes_fst_lt (key : List (Fin 256)) (len seed : Nat) :
    (murmur3_hash_128_lanes key len seed).1 < 2 ^ 32 := by
  unfold murmur3_hash_128_lanes
  exact cross128_fst_lt _

/-- C10: the two 64-bit words `murmur3_hash_128` returns are equal; each is
`(h1 << 32) | h2` of the final lanes, the shift losing no bit of `h1`, and the
closing block gives the same words whatever the final lanes `h3` and `h4` are. -/
theorem murmur3_hash_128_words_equal (key : List (Fin 256)) (len seed : Nat) :
    (murmur3_hash_128 key len seed).1 = (murmur3_hash_128 key len seed).2 ∧
      (murmur3_hash_128 key len seed).2 =
        ((murmur3_hash_128_lanes key len seed).1 <<< 32) |||
          (murmur3_hash_128_lanes key len seed).2.1 ∧
      ∀ h1 h2 h3 h4 h3' h4' : Nat,
        assemble128 (h1, h2, h3, h4) = assemble128 (h1, h2, h3', h4') := by
  refine ⟨rfl, ?_, fun _ _ _ _ _ _ => rfl⟩
  have hlt := murmur3_hash_128_lanes_fst_lt key len seed
  have hsh : (murmur3_hash_128_lanes key len seed).1 <<< 32 < 2 ^ 64 := by
    rw [Nat.shiftLeft_eq]
    calc (murmur3_hash_128_lanes key len seed).1 * 2 ^ 32 < 2 ^ 32 * 2 ^ 32 :=
          Nat.mul_lt_mul_of_pos_right hlt (Nat.two_pow_pos _)
      _ = 2 ^ 64 := by norm_num
  show (((murmur3_hash_128_lanes key len seed).1 <<< 32) % 2 ^ 64) |||
      (murmur3_hash_128_lanes key len seed).2.1 = _
  rw [Nat.mod_eq_of_lt hsh]

/-! ## Claims on Xoroshiro128+ -/

/-- C7: `xoro128plus_u64` returns `v0 + v1` modulo `2^64` of the state it was called
on and leaves the state `(rotl64(v0,55) XOR x XOR (x << 14), rotl64(x,36))` with
`x = v0 XOR v1`, the left shift taken in 64 bits. -/
theorem xoro128plus_u64_spec (v0 v1 : Nat) :
    xoro128plus_u64 { v0 := v0, v1 := v1 } =
      ((v0 + v1) % 2 ^ 64,
        { v0 := rotl64 v0 55 ^^^ (v0 ^^^ v1) ^^^ (((v0 ^^^ v1) * 2 ^ 14) % 2 ^ 64),
          v1 := rotl64 (v0 ^^^ v1) 36 }) := by
  simp only [xoro128plus_u64, rotl_eq_rotl64, Nat.xor_comm v1 v0, Nat.shiftLeft_eq]

/-- C8: for a non-zero seed, whatever the mixer and the entropy source return,
`xoro128plus_init` leaves `v0` non-zero and the state differs from (0, 0) after any
number `n` of steps; and one step of `xoro128plus_u64` takes a state other than
(0, 0) to a state other than (0, 0). -/
theorem xoro128plus_state_never_zero (makeseed : Nat) (splitmix64 : Nat → Nat × Nat)
    (seed n : Nat) (s : xoro128plus) (hseed : seed ≠ 0) (hs : s ≠ { v0 := 0, v1 := 0 }) :
    (xoro128plus_init makeseed splitmix64 seed).v0 ≠ 0 ∧
      xoro128plus_steps n (xoro128plus_init makeseed splitmix64 seed) ≠ { v0 := 0, v1 := 0 } ∧
      (xoro128plus_u64 s).2 ≠ { v0 := 0, v1 := 0 } := by
  have hv0 : (xoro128plus_init makeseed splitmix64 seed).v0 = seed := by
    simp [xoro128plus_init, hseed]
  refine ⟨by rw [hv0]; exact hseed, ?_, fun h => hs (xoro128plus_u64_eq_zero h)⟩
  apply xoro128plus_steps_ne_zero
  intro h
  rw [h] at hv0
  exact hseed hv0.symm

theorem xoro128plus_state_never_zero_witness :
    (xoro128plus_init 0 (fun x => (0, x)) 1).v0 ≠ 0 ∧
      xoro128plus_steps 3 (xoro128plus_init 0 (fun x => (0, x)) 1) ≠ { v0 := 0, v1 := 0 } ∧
      (xoro128plus_u64 { v0 := 0, v1 := 2 ^ 63 }).2 ≠ { v0 := 0, v1 := 0 } :=
  xoro128plus_state_never_zero 0 (fun x => (0, x)) 1 3 { v0 := 0, v1 := 2 ^ 63 }
    (by decide) (by decide)

/-- C9: `xoro128plus_init` sets `v0` to the effective seed (the caller's seed, or the
entropy value when the caller's seed is 0) and `v1` to the mixer's value on that
effective seed; for a non-zero seed the state is the same whatever the entropy
source holds, and `v0` is the caller's seed, not the word the mixer leaves behind. -/
theorem xoro128plus_init_spec (makeseed makeseed' : Nat) (splitmix64 : Nat → Nat × Nat)
    (seed : Nat) :
    xoro128plus_init makeseed splitmix64 seed =
        { v0 := if seed = 0 then makeseed else seed,
          v1 := (splitmix64 (if seed = 0 then makeseed else seed)).1 } ∧
      (seed ≠ 0 →
        xoro128plus_init makeseed' splitmix64 seed =
          { v0 := seed, v1 := (splitmix64 seed).1 }) := by
  refine ⟨rfl, fun h => ?_⟩
  simp [xoro128plus_init, h]

theorem xoro128plus_init_spec_witness :
    xoro128plus_init 9 sample_mixer 5 = { v0 := 5, v1 := (sample_mixer 5).1 } ∧
      (sample_mixer 5).2 ≠ 5 :=
  ⟨(xoro128plus_init_spec 7 9 sample_mixer 5).2 (by decide), by decide⟩


/-! ## Injectivity of the word operations -/

theorem testBit_false_of_lt {a w i : Nat} (ha : a < 2 ^ w) (hi : w ≤ i) :
    a.testBit i = false :=
  Nat.testBit_lt_two_pow (lt_of_lt_of_le ha (Nat.pow_le_pow_right (by decide) hi))

theorem xorshift_lt {a s w : Nat} (ha : a < 2 ^ w) : a ^^^ (a >>> s) < 2 ^ w := by
  apply Nat.xor_lt_two_pow ha
  rw [Nat.shiftRight_eq_div_pow]
  exact lt_of_le_of_lt (Nat.div_le_self _ _) ha

/-- `x ^= x >> s` loses nothing on `w`-bit words: bit `i` of the input is bit `i` of
the output XOR the (already known) bit `i + s` of the input. -/
theorem xorshift_inj {a b s w : Nat} (hs : 0 < s) (ha : a < 2 ^ w) (hb : b < 2 ^ w)
    (h : a ^^^ (a >>> s) = b ^^^ (b >>> s)) : a = b := by
  have key : ∀ d i, w ≤ i + d → a.testBit i = b.testBit i := by
    intro d
    induction d with
    | zero =>
      intro i hi
      rw [testBit_false_of_lt ha (by omega), testBit_false_of_lt hb (by omega)]
    | succ d ih =>
      intro i hi
      have hbit := congrArg (fun n => Nat.testBit n i) h
      simp only [Nat.testBit_xor, Nat.testBit_shiftRight] at hbit
      have hnext : a.testBit (s + i) = b.testBit (s + i) := ih (s + i) (by omega)
      rw [hnext] at hbit
      exact Bool.xor_right_inj.1 hbit
  exact Nat.eq_of_testBit_eq (fun i => key w i (by omega))

/-- Multiplication by a constant coprime to the modulus loses nothing. -/
theorem mul_mod_inj {m c a b : Nat} (hc : Nat.gcd m c = 1) (ha : a < m) (hb : b < m)
    (h : a * c % m = b * c % m) : a = b := by
  have h1 : a ≡ b [MOD m] := Nat.ModEq.cancel_right_of_coprime hc h
  rwa [Nat.ModEq, Nat.mod_eq_of_lt ha, Nat.mod_eq_of_lt hb] at h1

/-- A rotation of a `w`-bit word by `r ≤ w`, as a sum: the low `w - r` bits move up
by `r` and the high `r` bits move down. -/
theorem rot_eq_add {w r x : Nat} (hr : r ≤ w) (hx : x < 2 ^ w) :
    ((x <<< r) % 2 ^ w) ||| (x >>> (w - r)) =
      2 ^ r * (x % 2 ^ (w - r)) + x / 2 ^ (w - r) := by
  have hw : 2 ^ w = 2 ^ r * 2 ^ (w - r) := by
    rw [← pow_add]; congr 1; omega
  have hdiv : x / 2 ^ (w - r) < 2 ^ r := by
    apply Nat.div_lt_of_lt_mul
    rw [Nat.mul_comm, ← hw]
    exact hx
  rw [Nat.shiftLeft_eq, Nat.shiftRight_eq_div_pow, Nat.mul_add_lt_is_or hdiv]
  congr 1
  rw [hw, Nat.mul_comm x, Nat.mul_mod_mul_left]

theorem rot_lt {w r x : Nat} (hx : x < 2 ^ w) :
    ((x <<< r) % 2 ^ w) ||| (x >>> (w - r)) < 2 ^ w := by
  apply Nat.or_lt_two_pow (Nat.mod_lt _ (Nat.two_pow_pos _))
  rw [Nat.shiftRight_eq_div_pow]
  exact lt_of_le_of_lt (Nat.div_le_self _ _) hx

theorem rot_inj {w r x y : Nat} (hr : r ≤ w) (hx : x < 2 ^ w) (hy : y < 2 ^ w)
    (h : ((x <<< r) % 2 ^ w) ||| (x >>> (w - r)) =
      ((y <<< r) % 2 ^ w) ||| (y >>> (w - r))) : x = y := by
  rw [rot_eq_add hr hx, rot_eq_add hr hy] at h
  have hw : 2 ^ w = 2 ^ r * 2 ^ (w - r) := by
    rw [← pow_add]; congr 1; omega
  have hdx : x / 2 ^ (w - r) < 2 ^ r := by
    apply Nat.div_lt_of_lt_mul
    rw [Nat.mul_comm, ← hw]
    exact hx
  have hdy : y / 2 ^ (w - r) < 2 ^ r := by
    apply Nat.div_lt_of_lt_mul
    rw [Nat.mul_comm, ← hw]
    exact hy
  have hpos : 0 < 2 ^ r := Nat.two_pow_pos _
  have hq := congrArg (fun n => n / 2 ^ r) h
  have hm := congrArg (fun n => n % 2 ^ r) h
  simp only [Nat.mul_add_div hpos, Nat.mul_add_mod, Nat.div_eq_of_lt hdx,
    Nat.div_eq_of_lt hdy, Nat.mod_eq_of_lt hdx, Nat.mod_eq_of_lt hdy, Nat.add_zero] at hq hm
  rw [← Nat.div_add_mod x (2 ^ (w - r)), ← Nat.div_add_mod y (2 ^ (w - r)), hq, hm]

theorem rotl32_lt {x : Nat} (r : Nat) (hx : x < 2 ^ 32) : rotl32 x r < 2 ^ 32 :=
  rot_lt hx

theorem rotl32_inj {r x y : Nat} (hr : r ≤ 32) (hx : x < 2 ^ 32) (hy : y < 2 ^ 32)
    (h : rotl32 x r = rotl32 y r) : x = y :=
  rot_inj hr hx hy h

theorem rotl64_lt {x : Nat} (r : Nat) (hx : x < 2 ^ 64) : rotl64 x r < 2 ^ 64 :=
  rot_lt hx

theorem rotl64_inj {r x y : Nat} (hr : r ≤ 64) (hx : x < 2 ^ 64) (hy : y < 2 ^ 64)
    (h : rotl64 x r = rotl64 y r) : x = y :=
  rot_inj hr hx hy h

theorem fmix_lt (h : Nat) : fmix h < 2 ^ 32 :=
  xorshift_lt (Nat.mod_lt _ (by decide))

/-- `fmix` is injective on 32-bit words. -/
theorem fmix_inj {a b : Nat} (ha : a < 2 ^ 32) (hb : b < 2 ^ 32) (h : fmix a = fmix b) :
    a = b := by
  unfold fmix at h
  have h4 := xorshift_inj (by decide) (Nat.mod_lt _ (by decide)) (Nat.mod_lt _ (by decide)) h
  have h3 := mul_mod_inj (by decide) (xorshift_lt (Nat.mod_lt _ (by decide)))
    (xorshift_lt (Nat.mod_lt _ (by decide))) h4
  have h2 := xorshift_inj (by decide) (Nat.mod_lt _ (by decide)) (Nat.mod_lt _ (by decide)) h3
  have h1 := mul_mod_inj (by decide) (xorshift_lt ha) (xorshift_lt hb) h2
  exact xorshift_inj (by decide) ha hb h1

theorem fmix64_lt (k : Nat) : fmix64 k < 2 ^ 64 :=
  xorshift_lt (Nat.mod_lt _ (by decide))

/-- `fmix64` is injective on 64-bit words. -/
theorem fmix64_inj {a b : Nat} (ha : a < 2 ^ 64) (hb : b < 2 ^ 64)
    (h : fmix64 a = fmix64 b) : a = b := by
  unfold fmix64 at h
  have h4 := xorshift_inj (by decide) (Nat.mod_lt _ (by decide)) (Nat.mod_lt _ (by decide)) h
  have h3 := mul_mod_inj (by decide) (xorshift_lt (Nat.mod_lt _ (by decide)))
    (xorshift_lt (Nat.mod_lt _ (by decide))) h4
  have h2 := xorshift_inj (by decide) (Nat.mod_lt _ (by decide)) (Nat.mod_lt _ (by decide)) h3
  have h1 := mul_mod_inj (by decide) (xorshift_lt ha) (xorshift_lt hb) h2
  exact xorshift_inj (by decide) ha hb h1

/-! ## Further claims on Xoroshiro128+ -/

theorem xoro128plus_from_zero (n : Nat) :
    xoro128plus_outputs n { v0 := 0, v1 := 0 } = List.replicate n 0 ∧
      xoro128plus_steps n { v0 := 0, v1 := 0 } = { v0 := 0, v1 := 0 } := by
  have hstep : xoro128plus_u64 { v0 := 0, v1 := 0 } = (0, { v0 := 0, v1 := 0 }) := by decide
  induction n with
  | zero => exact ⟨rfl, rfl⟩
  | succ n ih =>
    constructor
    · rw [xoro128plus_outputs, hstep, ih.1]; rfl
    · rw [xoro128plus_steps, hstep, ih.2]

theorem rotl_inj {r x y : Nat} (hr : r ≤ 64) (hx : x < 2 ^ 64) (hy : y < 2 ^ 64)
    (h : rotl x r = rotl y r) : x = y :=
  rot_inj hr hx hy h

/-- Two in-range states with the same successor are equal. -/
theorem xoro128plus_u64_inj {s t : xoro128plus} (hs : s.inRange) (ht : t.inRange)
    (h : (xoro128plus_u64 s).2 = (xoro128plus_u64 t).2) : s = t := by
  obtain ⟨a0, a1⟩ := s
  obtain ⟨b0, b1⟩ := t
  obtain ⟨ha0, ha1⟩ := hs
  obtain ⟨hb0, hb1⟩ := ht
  simp only at ha0 ha1 hb0 hb1
  simp only [xoro128plus_u64, xoro128plus.mk.injEq] at h
  obtain ⟨h0, h1⟩ := h
  have hx : a1 ^^^ a0 = b1 ^^^ b0 :=
    rotl_inj (by decide) (Nat.xor_lt_two_pow ha1 ha0) (Nat.xor_lt_two_pow hb1 hb0) h1
  rw [hx] at h0
  have hr : rotl a0 55 = rotl b0 55 := Nat.xor_left_inj.1 (Nat.xor_left_inj.1 h0)
  have h00 : a0 = b0 := rotl_inj (by decide) ha0 hb0 hr
  subst h00
  have h11 : a1 = b1 := Nat.xor_left_inj.1 hx
  subst h11
  rfl

/-- Every in-range state is the successor of an in-range state: the step is an
injective map of the finite set of in-range states into itself. -/
theorem xoro128plus_u64_surj (t : xoro128plus) (ht : t.inRange) :
    ∃ s : xoro128plus, s.inRange ∧ (xoro128plus_u64 s).2 = t := by
  have hfin : Finite { s : xoro128plus // s.inRange } := by
    apply Finite.of_injective
      (fun s : { s : xoro128plus // s.inRange } =>
        ((⟨s.1.v0, s.2.1⟩ : Fin (2 ^ 64)), (⟨s.1.v1, s.2.2⟩ : Fin (2 ^ 64))))
    rintro ⟨⟨a0, a1⟩, ha⟩ ⟨⟨b0, b1⟩, hb⟩ hab
    simp only [Prod.mk.injEq, Fin.mk.injEq] at hab
    apply Subtype.ext
    simp only [xoro128plus.mk.injEq]
    exact hab
  have hinj : Function.Injective
      (fun s : { s : xoro128plus // s.inRange } =>
        (⟨(xoro128plus_u64 s.1).2, xoro128plus_u64_inRange s.1 s.2⟩ :
          { s : xoro128plus // s.inRange })) :=
    fun a b hab => Subtype.ext (xoro128plus_u64_inj a.2 b.2 (congrArg Subtype.val hab))
  obtain ⟨s, hs⟩ := Finite.surjective_of_injective hinj ⟨t, ht⟩
  exact ⟨s.1, s.2, congrArg Subtype.val hs⟩

/-- C12: from the all-zero state every call of `xoro128plus_u64` returns 0 and
leaves the state (0, 0): the first `n` outputs are all 0 and the state after `n`
steps is (0, 0). -/
theorem xoro128plus_zero_forever (n : Nat) :
    xoro128plus_outputs n { v0 := 0, v1 := 0 } = List.replicate n 0 ∧
      xoro128plus_steps n { v0 := 0, v1 := 0 } = { v0 := 0, v1 := 0 } ∧
      xoro128plus_u64 { v0 := 0, v1 := 0 } = (0, { v0 := 0, v1 := 0 }) :=
  ⟨(xoro128plus_from_zero n).1, (xoro128plus_from_zero n).2, by decide⟩

/-- C18: on states whose words are 64-bit values, two states with the same next
state are equal, and every state has exactly one predecessor. -/
theorem xoro128plus_u64_one_predecessor (s t : xoro128plus) (hs : s.inRange)
    (ht : t.inRange) :
    ((xoro128plus_u64 s).2 = (xoro128plus_u64 t).2 → s = t) ∧
      ∃! p : xoro128plus, p.inRange ∧ (xoro128plus_u64 p).2 = t := by
  refine ⟨xoro128plus_u64_inj hs ht, ?_⟩
  obtain ⟨p, hp, hpt⟩ := xoro128plus_u64_surj t ht
  refine ⟨p, ⟨hp, hpt⟩, ?_⟩
  rintro q ⟨hq, hqt⟩
  exact xoro128plus_u64_inj hq hp (hqt.trans hpt.symm)

theorem xoro128plus_u64_one_predecessor_witness :
    (xoro128plus_u64 { v0 := 1, v1 := 2 }).2 ≠ (xoro128plus_u64 { v0 := 2, v1 := 1 }).2 ∧
      ∃! p : xoro128plus, p.inRange ∧ (xoro128plus_u64 p).2 = { v0 := 2, v1 := 1 } :=
  ⟨fun h => absurd
      ((xoro128plus_u64_one_predecessor { v0 := 1, v1 := 2 } { v0 := 2, v1 := 1 }
        ⟨by decide, by decide⟩ ⟨by decide, by decide⟩).1 h) (by decide),
    (xoro128plus_u64_one_predecessor { v0 := 1, v1 := 2 } { v0 := 2, v1 := 1 }
      ⟨by decide, by decide⟩ ⟨by decide, by decide⟩).2⟩

/-! ## `murmur3_hash64_128` on the empty input -/

theorem murmur3_hash64_128_len_zero (key : List (Fin 256)) (seed : Nat) :
    murmur3_hash64_128 key 0 seed = final64 seed seed 0 := rfl

theorem cross_add_eq_iff {f1 f2 : Nat} (h2 : f2 < 2 ^ 64) :
    (f1 + f2) % 2 ^ 64 = (f2 + (f1 + f2) % 2 ^ 64) % 2 ^ 64 ↔ f2 = 0 := by
  omega

theorem fmix64_eq_zero_iff {k : Nat} (hk : k < 2 ^ 64) : fmix64 k = 0 ↔ k = 0 := by
  have hz : fmix64 0 = 0 := by decide
  constructor
  · intro h
    exact fmix64_inj hk (by decide) (h.trans hz.symm)
  · intro h
    rw [h, hz]

/-- C11: for length 0 and a 32-bit seed, the two words `murmur3_hash64_128` returns
are equal exactly when the seed is 0; for every non-zero seed they differ. -/
theorem murmur3_hash64_128_empty_words (key : List (Fin 256)) (seed : Nat)
    (hseed : seed < 2 ^ 32) :
    ((murmur3_hash64_128 key 0 seed).1 = (murmur3_hash64_128 key 0 seed).2 ↔ seed = 0) ∧
      (seed ≠ 0 → (murmur3_hash64_128 key 0 seed).1 ≠ (murmur3_hash64_128 key 0 seed).2) := by
  have hiff : (murmur3_hash64_128 key 0 seed).1 = (murmur3_hash64_128 key 0 seed).2 ↔
      seed = 0 := by
    rw [murmur3_hash64_128_len_zero]
    simp only [final64, Nat.xor_zero]
    rw [cross_add_eq_iff (fmix64_lt _), fmix64_eq_zero_iff (Nat.mod_lt _ (by decide))]
    have h1 : seed % 2 ^ 64 = seed := Nat.mod_eq_of_lt (by omega)
    have h2 : (seed + seed) % 2 ^ 64 = seed + seed := Nat.mod_eq_of_lt (by omega)
    have h3 : (seed + (seed + seed)) % 2 ^ 64 = seed + (seed + seed) :=
      Nat.mod_eq_of_lt (by omega)
    rw [h1, h2, h3]
    omega
  exact ⟨hiff, fun hne h => hne (hiff.1 h)⟩

theorem murmur3_hash64_128_empty_words_witness :
    (murmur3_hash64_128 [] 0 1).1 ≠ (murmur3_hash64_128 [] 0 1).2 :=
  (murmur3_hash64_128_empty_words [] 1 (by decide)).2 (by decide)

/-! ## `murmur3_hash_32` as a function of the seed -/

theorem xor_mod_two_pow (a b n : Nat) : (a ^^^ b) % 2 ^ n = (a % 2 ^ n) ^^^ (b % 2 ^ n) := by
  apply Nat.eq_of_testBit_eq
  intro i
  simp only [Nat.testBit_mod_two_pow, Nat.testBit_xor]
  cases decide (i < n) <;> simp

theorem xor_len_inj {a b len : Nat} (ha : a < 2 ^ 32) (hb : b < 2 ^ 32)
    (h : (a ^^^ len) % 2 ^ 32 = (b ^^^ len) % 2 ^ 32) : a = b := by
  rw [xor_mod_two_pow, xor_mod_two_pow, Nat.mod_eq_of_lt ha, Nat.mod_eq_of_lt hb] at h
  exact Nat.xor_left_inj.1 h

theorem mix32_k1_lt (k : Nat) : mix32_k1 k < 2 ^ 32 :=
  Nat.mod_lt _ (by decide)

theorem mul5_add_inj {a b c : Nat} (ha : a < 2 ^ 32) (hb : b < 2 ^ 32)
    (h : (a * 5 + c) % 2 ^ 32 = (b * 5 + c) % 2 ^ 32) : a = b := by
  have h1 : a * 5 ≡ b * 5 [MOD 2 ^ 32] := Nat.ModEq.add_right_cancel' c h
  exact mul_mod_inj (by decide) ha hb h1

theorem loop32_succ (data : List (Fin 256)) (nblocks n k h : Nat) :
    loop32 data nblocks (n + 1) (k, h) =
      loop32 data nblocks n
        (mix32_k1 (getblock32 data ((nblocks - (n + 1)) * 4)),
          (rotl32 (h ^^^ mix32_k1 (getblock32 data ((nblocks - (n + 1)) * 4))) 13 * 5
            + 0xe6546b64) % 2 ^ 32) := rfl

theorem loop32_snd_lt (data : List (Fin 256)) (nblocks : Nat) :
    ∀ n k h, h < 2 ^ 32 → (loop32 data nblocks n (k, h)).2 < 2 ^ 32 := by
  intro n
  induction n with
  | zero => intro k h hh; exact hh
  | succ n ih =>
    intro k h _
    rw [loop32_succ]
    exact ih _ _ (Nat.mod_lt _ (by decide))

theorem loop32_fst_eq (data : List (Fin 256)) (nblocks : Nat) :
    ∀ n k h h', (loop32 data nblocks n (k, h)).1 = (loop32 data nblocks n (k, h')).1 := by
  intro n
  induction n with
  | zero => intro k h h'; rfl
  | succ n ih =>
    intro k h h'
    rw [loop32_succ, loop32_succ]
    exact ih _ _ _

/-- The block loop of `murmur3_hash_32` is injective in the `h1` it starts from. -/
theorem loop32_snd_inj (data : List (Fin 256)) (nblocks : Nat) :
    ∀ n k k' h h', h < 2 ^ 32 → h' < 2 ^ 32 →
      (loop32 data nblocks n (k, h)).2 = (loop32 data nblocks n (k', h')).2 → h = h' := by
  intro n
  induction n with
  | zero => intro k k' h h' _ _ heq; exact heq
  | succ n ih =>
    intro k k' h h' hh hh' heq
    rw [loop32_succ, loop32_succ] at heq
    have h1 := ih _ _ _ _ (Nat.mod_lt _ (by decide)) (Nat.mod_lt _ (by decide)) heq
    have h2 := mul5_add_inj (rotl32_lt 13 (Nat.xor_lt_two_pow hh (mix32_k1_lt _)))
      (rotl32_lt 13 (Nat.xor_lt_two_pow hh' (mix32_k1_lt _))) h1
    have h3 := rotl32_inj (by decide) (Nat.xor_lt_two_pow hh (mix32_k1_lt _))
      (Nat.xor_lt_two_pow hh' (mix32_k1_lt _)) h2
    exact Nat.xor_left_inj.1 h3

theorem tail32_snd_lt (data : List (Fin 256)) (toff c : Nat) (s : Nat × Nat)
    (hs : s.2 < 2 ^ 32) : (tail32 data toff c s).2 < 2 ^ 32 := by
  obtain ⟨k, h⟩ := s
  simp only [tail32]
  split
  · exact Nat.xor_lt_two_pow hs (mix32_k1_lt _)
  · exact hs

/-- The tail switch of `murmur3_hash_32` is injective in `h1` once `k1` is fixed. -/
theorem tail32_snd_inj (data : List (Fin 256)) (toff c : Nat) (s s' : Nat × Nat)
    (hk : s.1 = s'.1) (h : (tail32 data toff c s).2 = (tail32 data toff c s').2) :
    s.2 = s'.2 := by
  obtain ⟨k, a⟩ := s
  obtain ⟨k', b⟩ := s'
  simp only at hk
  subst hk
  simp only [tail32] at h
  split at h
  · exact Nat.xor_left_inj.1 h
  · exact h

theorem murmur3_hash_32_lt (key : List (Fin 256)) (len seed : Nat) :
    murmur3_hash_32 key len seed < 2 ^ 32 :=
  fmix_lt _

theorem murmur3_hash_32_seed_inj (key : List (Fin 256)) (len : Nat) {s1 s2 : Nat}
    (h1 : s1 < 2 ^ 32) (h2 : s2 < 2 ^ 32)
    (h : murmur3_hash_32 key len s1 = murmur3_hash_32 key len s2) : s1 = s2 := by
  simp only [murmur3_hash_32] at h
  have hA := loop32_snd_lt key (len / 4) (len / 4) 0 s1 h1
  have hB := loop32_snd_lt key (len / 4) (len / 4) 0 s2 h2
  have hf := fmix_inj (Nat.mod_lt _ (by decide)) (Nat.mod_lt _ (by decide)) h
  have hx := xor_len_inj (tail32_snd_lt _ _ _ _ hA) (tail32_snd_lt _ _ _ _ hB) hf
  have ht := tail32_snd_inj _ _ _ _ _ (loop32_fst_eq key (len / 4) (len / 4) 0 s1 s2) hx
  exact loop32_snd_inj key (len / 4) (len / 4) 0 0 s1 s2 h1 h2 ht

/-- C14: with the buffer and the length fixed, `murmur3_hash_32` sends different
32-bit seeds to different digests, and every 32-bit value is the digest of some
32-bit seed. -/
theorem murmur3_hash_32_seed_bijective (key : List (Fin 256)) (len s1 s2 d : Nat)
    (h1 : s1 < 2 ^ 32) (h2 : s2 < 2 ^ 32) (hne : s1 ≠ s2) (hd : d < 2 ^ 32) :
    murmur3_hash_32 key len s1 ≠ murmur3_hash_32 key len s2 ∧
      ∃ s, s < 2 ^ 32 ∧ murmur3_hash_32 key len s = d := by
  refine ⟨fun h => hne (murmur3_hash_32_seed_inj key len h1 h2 h), ?_⟩
  have hinj : Function.Injective
      (fun s : Fin (2 ^ 32) => (⟨murmur3_hash_32 key len s.1, murmur3_hash_32_lt _ _ _⟩ :
        Fin (2 ^ 32))) := by
    intro a b hab
    exact Fin.ext (murmur3_hash_32_seed_inj key len a.2 b.2 (congrArg Fin.val hab))
  obtain ⟨s, hs⟩ := Finite.surjective_of_injective hinj ⟨d, hd⟩
  exact ⟨s.1, s.2, congrArg Fin.val hs⟩

theorem murmur3_hash_32_seed_bijective_witness :
    murmur3_hash_32 hello 5 0 ≠ murmur3_hash_32 hello 5 1 ∧
      ∃ s, s < 2 ^ 32 ∧ murmur3_hash_32 hello 5 s = 0 :=
  murmur3_hash_32_seed_bijective hello 5 0 1 0 (by decide) (by decide) (by decide) (by decide)

/-! ## `murmur3_hash_32` on keys of at most four bytes -/

/-- XOR of a multiple of `2^k` with a value below `2^k` is their sum. -/
theorem mul_pow_xor_eq_add {k a : Nat} (x : Nat) (ha : a < 2 ^ k) :
    (2 ^ k * x) ^^^ a = 2 ^ k * x + a := by
  apply Nat.eq_of_testBit_eq
  intro i
  rw [Nat.testBit_xor, Nat.testBit_mul_pow_two_add x ha, Nat.testBit_mul_pow_two]
  by_cases hi : i < k
  · have hge : ¬ (i ≥ k) := by omega
    simp [hi, hge]
  · have hge : i ≥ k := by omega
    simp [hi, hge, testBit_false_of_lt ha hge]

theorem mix32_k1_inj {a b : Nat} (ha : a < 2 ^ 32) (hb : b < 2 ^ 32)
    (h : mix32_k1 a = mix32_k1 b) : a = b := by
  simp only [mix32_k1] at h
  have h1 := mul_mod_inj (by decide) (rotl32_lt 15 (Nat.mod_lt _ (by decide)))
    (rotl32_lt 15 (Nat.mod_lt _ (by decide))) h
  have h2 := rotl32_inj (by decide) (Nat.mod_lt _ (by decide)) (Nat.mod_lt _ (by decide)) h1
  exact mul_mod_inj (by decide) ha hb h2

/-- The word the tail switch builds from up to three bytes, starting from `k1 = 0`. -/
theorem tail_word_eq_add {a b c : Nat} (ha : a < 256) (hb : b < 256) :
    ((0 ^^^ (c <<< 16)) ^^^ (b <<< 8)) ^^^ a = a + 256 * b + 65536 * c := by
  have e1 : (0 ^^^ (c <<< 16)) ^^^ (b <<< 8) = 2 ^ 16 * c + b <<< 8 := by
    rw [Nat.zero_xor, Nat.shiftLeft_eq c, Nat.mul_comm c]
    apply mul_pow_xor_eq_add
    rw [Nat.shiftLeft_eq]
    omega
  have e2 : 2 ^ 16 * c + b <<< 8 = 2 ^ 8 * (256 * c + b) := by
    rw [Nat.shiftLeft_eq]
    omega
  rw [e1, e2, mul_pow_xor_eq_add _ (by omega : a < 2 ^ 8)]
  omega

/-- The little-endian word of four bytes, as a sum. -/
theorem le_word_eq_add {a b c d : Nat} (ha : a < 256) (hb : b < 256) (hc : c < 256) :
    a ||| (b <<< 8) ||| (c <<< 16) ||| (d <<< 24) =
      a + 256 * b + 65536 * c + 16777216 * d := by
  have e1 : a ||| (b <<< 8) = 2 ^ 8 * b + a := by
    rw [Nat.mul_add_lt_is_or (by omega : a < 2 ^ 8), Nat.lor_comm, Nat.shiftLeft_eq,
      Nat.mul_comm]
  have e2 : (2 ^ 8 * b + a) ||| (c <<< 16) = 2 ^ 16 * c + (2 ^ 8 * b + a) := by
    rw [Nat.mul_add_lt_is_or (by omega : 2 ^ 8 * b + a < 2 ^ 16), Nat.lor_comm,
      Nat.shiftLeft_eq, Nat.mul_comm]
  have e3 : (2 ^ 16 * c + (2 ^ 8 * b + a)) ||| (d <<< 24) =
      2 ^ 24 * d + (2 ^ 16 * c + (2 ^ 8 * b + a)) := by
    rw [Nat.mul_add_lt_is_or (by omega : 2 ^ 16 * c + (2 ^ 8 * b + a) < 2 ^ 24),
      Nat.lor_comm, Nat.shiftLeft_eq, Nat.mul_comm]
  rw [e1, e2, e3]
  omega

theorem murmur3_hash_32_one (a : Fin 256) (seed : Nat) :
    murmur3_hash_32 [a] 1 seed =
      fmix (((seed ^^^ mix32_k1 (((0 ^^^ (0 <<< 16)) ^^^ (0 <<< 8)) ^^^ a.val)) ^^^ 1) % 2 ^ 32) :=
  rfl

theorem murmur3_hash_32_two (a b : Fin 256) (seed : Nat) :
    murmur3_hash_32 [a, b] 2 seed =
      fmix (((seed ^^^ mix32_k1 (((0 ^^^ (0 <<< 16)) ^^^ (b.val <<< 8)) ^^^ a.val)) ^^^ 2)
        % 2 ^ 32) :=
  rfl

theorem murmur3_hash_32_three (a b c : Fin 256) (seed : Nat) :
    murmur3_hash_32 [a, b, c] 3 seed =
      fmix (((seed ^^^ mix32_k1 (((0 ^^^ (c.val <<< 16)) ^^^ (b.val <<< 8)) ^^^ a.val)) ^^^ 3)
        % 2 ^ 32) :=
  rfl

theorem murmur3_hash_32_four (a b c d : Fin 256) (seed : Nat) :
    murmur3_hash_32 [a, b, c, d] 4 seed =
      fmix ((((rotl32 (seed ^^^ mix32_k1
          (a.val ||| (b.val <<< 8) ||| (c.val <<< 16) ||| (d.val <<< 24))) 13 * 5
          + 0xe6546b64) % 2 ^ 32) ^^^ 4) % 2 ^ 32) :=
  rfl

/-- Digests of two tail-only keys agree only if the tail words agree. -/
theorem tail_only_inj {seed n a b c a' b' c' : Nat} (hseed : seed < 2 ^ 32)
    (ha : a < 256) (hb : b < 256) (hc : c < 256)
    (ha' : a' < 256) (hb' : b' < 256) (hc' : c' < 256)
    (h : fmix (((seed ^^^ mix32_k1 (((0 ^^^ (c <<< 16)) ^^^ (b <<< 8)) ^^^ a)) ^^^ n) % 2 ^ 32)
      = fmix (((seed ^^^ mix32_k1 (((0 ^^^ (c' <<< 16)) ^^^ (b' <<< 8)) ^^^ a')) ^^^ n)
        % 2 ^ 32)) :
    a = a' ∧ b = b' ∧ c = c' := by
  have hf := fmix_inj (Nat.mod_lt _ (by decide)) (Nat.mod_lt _ (by decide)) h
  have hx := xor_len_inj (Nat.xor_lt_two_pow hseed (mix32_k1_lt _))
    (Nat.xor_lt_two_pow hseed (mix32_k1_lt _)) hf
  have hm := Nat.xor_right_inj.1 hx
  rw [tail_word_eq_add ha hb, tail_word_eq_add ha' hb'] at hm
  clear h hf hx
  have hw := mix32_k1_inj (by omega) (by omega) hm
  clear hm
  omega

/-- Digests of two four-byte keys agree only if the block words agree. -/
theorem block_only_inj {seed a b c d a' b' c' d' : Nat} (hseed : seed < 2 ^ 32)
    (ha : a < 256) (hb : b < 256) (hc : c < 256) (hd : d < 256)
    (ha' : a' < 256) (hb' : b' < 256) (hc' : c' < 256) (hd' : d' < 256)
    (h : fmix ((((rotl32 (seed ^^^ mix32_k1
          (a ||| (b <<< 8) ||| (c <<< 16) ||| (d <<< 24))) 13 * 5
          + 0xe6546b64) % 2 ^ 32) ^^^ 4) % 2 ^ 32)
      = fmix ((((rotl32 (seed ^^^ mix32_k1
          (a' ||| (b' <<< 8) ||| (c' <<< 16) ||| (d' <<< 24))) 13 * 5
          + 0xe6546b64) % 2 ^ 32) ^^^ 4) % 2 ^ 32)) :
    a = a' ∧ b = b' ∧ c = c' ∧ d = d' := by
  have hf := fmix_inj (Nat.mod_lt _ (by decide)) (Nat.mod_lt _ (by decide)) h
  have hx := xor_len_inj (Nat.mod_lt _ (by decide)) (Nat.mod_lt _ (by decide)) hf
  have h5 := mul5_add_inj (rotl32_lt 13 (Nat.xor_lt_two_pow hseed (mix32_k1_lt _)))
    (rotl32_lt 13 (Nat.xor_lt_two_pow hseed (mix32_k1_lt _))) hx
  have hr := rotl32_inj (by decide) (Nat.xor_lt_two_pow hseed (mix32_k1_lt _))
    (Nat.xor_lt_two_pow hseed (mix32_k1_lt _)) h5
  have hm := Nat.xor_right_inj.1 hr
  rw [le_word_eq_add ha hb hc, le_word_eq_add ha' hb' hc'] at hm
  clear h hf hx h5 hr
  have hw := mix32_k1_inj (by omega) (by omega) hm
  clear hm
  omega

theorem list_length_four {α : Type} (l : List α) (h : l.length = 4) :
    ∃ a b c d, l = [a, b, c, d] := by
  rcases l with _ | ⟨a, _ | ⟨b, _ | ⟨c, _ | ⟨d, _ | ⟨e, l⟩⟩⟩⟩⟩ <;> simp at h
  exact ⟨a, b, c, d, rfl⟩

theorem murmur3_hash_32_short_inj (seed n : Nat) (key key' : List (Fin 256))
    (hseed : seed < 2 ^ 32) (hn1 : 1 ≤ n) (hn4 : n ≤ 4) (hk : key.length = n)
    (hk' : key'.length = n)
    (h : murmur3_hash_32 key n seed = murmur3_hash_32 key' n seed) : key = key' := by
  interval_cases n
  · obtain ⟨a, rfl⟩ := List.length_eq_one.1 hk
    obtain ⟨a', rfl⟩ := List.length_eq_one.1 hk'
    rw [murmur3_hash_32_one, murmur3_hash_32_one] at h
    have := tail_only_inj hseed a.2 (by decide) (by decide) a'.2 (by decide) (by decide) h
    rw [Fin.ext this.1]
  · obtain ⟨a, b, rfl⟩ := List.length_eq_two.1 hk
    obtain ⟨a', b', rfl⟩ := List.length_eq_two.1 hk'
    rw [murmur3_hash_32_two, murmur3_hash_32_two] at h
    have := tail_only_inj hseed a.2 b.2 (by decide) a'.2 b'.2 (by decide) h
    rw [Fin.ext this.1, Fin.ext this.2.1]
  · obtain ⟨a, b, c, rfl⟩ := List.length_eq_three.1 hk
    obtain ⟨a', b', c', rfl⟩ := List.length_eq_three.1 hk'
    rw [murmur3_hash_32_three, murmur3_hash_32_three] at h
    have := tail_only_inj hseed a.2 b.2 c.2 a'.2 b'.2 c'.2 h
    rw [Fin.ext this.1, Fin.ext this.2.1, Fin.ext this.2.2]
  · obtain ⟨a, b, c, d, rfl⟩ := list_length_four key hk
    obtain ⟨a', b', c', d', rfl⟩ := list_length_four key' hk'
    rw [murmur3_hash_32_four, murmur3_hash_32_four] at h
    have e := block_only_inj hseed a.2 b.2 c.2 d.2 a'.2 b'.2 c'.2 d'.2 h
    rw [Fin.ext e.1, Fin.ext e.2.1, Fin.ext e.2.2.1, Fin.ext e.2.2.2]

/-- C17: for a 32-bit seed and a length `n` from 1 to 4, two different `n`-byte
buffers never have the same `murmur3_hash_32` digest. -/
theorem murmur3_hash_32_short_keys_distinct (seed n : Nat) (key key' : List (Fin 256))
    (hseed : seed < 2 ^ 32) (hn1 : 1 ≤ n) (hn4 : n ≤ 4) (hk : key.length = n)
    (hk' : key'.length = n) (hne : key ≠ key') :
    murmur3_hash_32 key n seed ≠ murmur3_hash_32 key' n seed :=
  fun h => hne (murmur3_hash_32_short_inj seed n key key' hseed hn1 hn4 hk hk' h)

theorem murmur3_hash_32_short_keys_distinct_witness :
    murmur3_hash_32 [1, 2, 3, 4] 4 7 ≠ murmur3_hash_32 [1, 2, 3, 5] 4 7 :=
  murmur3_hash_32_short_keys_distinct 7 4 [1, 2, 3, 4] [1, 2, 3, 5] (by decide) (by decide)
    (by decide) rfl rfl (by decide)

/-! ## Bytes, words and the list view of the buffer -/

theorem byteAt_lt (data : List (Fin 256)) (i : Nat) : byteAt data i < 256 :=
  (data.getD i 0).2

theorem byteAt_nil (i : Nat) : byteAt [] i = 0 := rfl

theorem byteAt_cons_zero (b : Fin 256) (l : List (Fin 256)) : byteAt (b :: l) 0 = b.val := rfl

theorem byteAt_cons_succ (b : Fin 256) (l : List (Fin 256)) (j : Nat) :
    byteAt (b :: l) (j + 1) = byteAt l j := rfl

theorem byteAt_drop (data : List (Fin 256)) (off j : Nat) :
    byteAt (data.drop off) j = byteAt data (off + j) := by
  simp [byteAt, List.getD_eq_getElem?_getD, List.getElem?_drop]

theorem byteAt_of_le (data : List (Fin 256)) (i : Nat) (h : data.length ≤ i) :
    byteAt data i = 0 := by
  simp [byteAt, List.getD_eq_getElem?_getD, List.getElem?_eq_none h]

theorem byteAt_take (data : List (Fin 256)) (n j : Nat) (h : j < n) :
    byteAt (data.take n) j = byteAt data j := by
  simp [byteAt, List.getD_eq_getElem?_getD, List.getElem?_take, h]

theorem shiftLeft_xor_distrib (a b k : Nat) : (a ^^^ b) <<< k = (a <<< k) ^^^ (b <<< k) := by
  apply Nat.eq_of_testBit_eq
  intro i
  simp only [Nat.testBit_shiftLeft, Nat.testBit_xor]
  cases decide (i ≥ k) <;> simp

theorem shiftLeft_or_distrib (a b k : Nat) : (a ||| b) <<< k = (a <<< k) ||| (b <<< k) := by
  apply Nat.eq_of_testBit_eq
  intro i
  simp only [Nat.testBit_shiftLeft, Nat.testBit_or]
  cases decide (i ≥ k) <;> simp

/-- OR with a word shifted past the bits of `x` is XOR with it. -/
theorem or_shl_eq_xor {x k : Nat} (y : Nat) (hx : x < 2 ^ k) :
    x ||| (y <<< k) = x ^^^ (y <<< k) := by
  apply Nat.eq_of_testBit_eq
  intro i
  simp only [Nat.testBit_shiftLeft, Nat.testBit_xor, Nat.testBit_or]
  by_cases hi : i ≥ k
  · simp [hi, testBit_false_of_lt hx hi]
  · simp [hi]

theorem spec_le_word_nil : spec_le_word [] = 0 := rfl

theorem spec_le_word_cons (b : Fin 256) (bs : List (Fin 256)) :
    spec_le_word (b :: bs) = b.val ^^^ (spec_le_word bs <<< 8) := by
  show b.val ||| (spec_le_word bs <<< 8) = _
  exact or_shl_eq_xor _ b.2

theorem spec_le_word_eq_xor4 (l : List (Fin 256)) (hl : l.length ≤ 4) :
    spec_le_word l =
      byteAt l 0 ^^^ (byteAt l 1 <<< 8) ^^^ (byteAt l 2 <<< 16) ^^^ (byteAt l 3 <<< 24) := by
  rcases l with _ | ⟨a0, _ | ⟨a1, _ | ⟨a2, _ | ⟨a3, _ | ⟨a4, l⟩⟩⟩⟩⟩
  all_goals first
    | (simp at hl; done)
    | simp [spec_le_word_cons, spec_le_word_nil, byteAt_cons_zero, byteAt_cons_succ, byteAt_nil,
        shiftLeft_xor_distrib, ← Nat.shiftLeft_add, Nat.xor_assoc]

theorem spec_le_word_eq_xor8 (l : List (Fin 256)) (hl : l.length ≤ 8) :
    spec_le_word l =
      byteAt l 0 ^^^ (byteAt l 1 <<< 8) ^^^ (byteAt l 2 <<< 16) ^^^ (byteAt l 3 <<< 24) ^^^
        (byteAt l 4 <<< 32) ^^^ (byteAt l 5 <<< 40) ^^^ (byteAt l 6 <<< 48) ^^^
        (byteAt l 7 <<< 56) := by
  rcases l with _ | ⟨a0, _ | ⟨a1, _ | ⟨a2, _ | ⟨a3, _ | ⟨a4, _ | ⟨a5, _ | ⟨a6, _ | ⟨a7,
    _ | ⟨a8, l⟩⟩⟩⟩⟩⟩⟩⟩⟩
  all_goals first
    | (simp at hl; done)
    | simp [spec_le_word_cons, spec_le_word_nil, byteAt_cons_zero, byteAt_cons_succ, byteAt_nil,
        shiftLeft_xor_distrib, ← Nat.shiftLeft_add, Nat.xor_assoc]

theorem shl_byte_lt {b : Nat} (k : Nat) (hb : b < 256) : b <<< k < 2 ^ (k + 8) := by
  rw [Nat.shiftLeft_eq, Nat.pow_add, Nat.mul_comm]
  exact Nat.mul_lt_mul_of_pos_left hb (Nat.two_pow_pos _)

theorem getblock32_eq_xor (data : List (Fin 256)) (off : Nat) :
    getblock32 data off =
      byteAt data off ^^^ (byteAt data (off + 1) <<< 8) ^^^ (byteAt data (off + 2) <<< 16) ^^^
        (byteAt data (off + 3) <<< 24) := by
  have h0 : byteAt data off < 2 ^ 8 := byteAt_lt _ _
  have h1 : byteAt data off ^^^ (byteAt data (off + 1) <<< 8) < 2 ^ 16 :=
    Nat.xor_lt_two_pow (lt_trans h0 (by decide)) (shl_byte_lt 8 (byteAt_lt _ _))
  have h2 : byteAt data off ^^^ (byteAt data (off + 1) <<< 8) ^^^
      (byteAt data (off + 2) <<< 16) < 2 ^ 24 :=
    Nat.xor_lt_two_pow (lt_trans h1 (by decide)) (shl_byte_lt 16 (byteAt_lt _ _))
  unfold getblock32
  rw [or_shl_eq_xor _ h0, or_shl_eq_xor _ h1, or_shl_eq_xor _ h2]

theorem getblock32_lt (data : List (Fin 256)) (off : Nat) : getblock32 data off < 2 ^ 32 := by
  rw [getblock32_eq_xor]
  have h0 : byteAt data off < 2 ^ 8 := byteAt_lt _ _
  exact Nat.xor_lt_two_pow (Nat.xor_lt_two_pow (Nat.xor_lt_two_pow (lt_trans h0 (by decide))
    (lt_trans (shl_byte_lt 8 (byteAt_lt _ _)) (by decide)))
    (lt_trans (shl_byte_lt 16 (byteAt_lt _ _)) (by decide)))
    (shl_byte_lt 24 (byteAt_lt _ _))

/-- The word the block loop reads at byte `off` is the little-endian word of the four
bytes that follow the first `off` bytes of the buffer. -/
theorem getblock32_eq_le (data : List (Fin 256)) (off : Nat) :
    getblock32 data off = spec_le_word ((data.drop off).take 4) := by
  rw [spec_le_word_eq_xor4 _ (List.length_take_le _ _), getblock32_eq_xor,
    byteAt_take _ _ _ (by decide), byteAt_take _ _ _ (by decide),
    byteAt_take _ _ _ (by decide), byteAt_take _ _ _ (by decide),
    byteAt_drop, byteAt_drop, byteAt_drop, byteAt_drop]
  rfl

theorem getblock64_eq_xor (data : List (Fin 256)) (off : Nat) :
    getblock64 data off =
      byteAt data off ^^^ (byteAt data (off + 1) <<< 8) ^^^ (byteAt data (off + 2) <<< 16) ^^^
        (byteAt data (off + 3) <<< 24) ^^^ (byteAt data (off + 4) <<< 32) ^^^
        (byteAt data (off + 5) <<< 40) ^^^ (byteAt data (off + 6) <<< 48) ^^^
        (byteAt data (off + 7) <<< 56) := by
  unfold getblock64
  rw [or_shl_eq_xor _ (getblock32_lt data off), getblock32_eq_xor, getblock32_eq_xor]
  simp only [shiftLeft_xor_distrib, ← Nat.shiftLeft_add, Nat.add_assoc, Nat.reduceAdd,
    Nat.xor_assoc]

theorem getblock64_eq_le (data : List (Fin 256)) (off : Nat) :
    getblock64 data off = spec_le_word ((data.drop off).take 8) := by
  rw [spec_le_word_eq_xor8 _ (List.length_take_le _ _), getblock64_eq_xor,
    byteAt_take _ _ _ (by decide), byteAt_take _ _ _ (by decide),
    byteAt_take _ _ _ (by decide), byteAt_take _ _ _ (by decide),
    byteAt_take _ _ _ (by decide), byteAt_take _ _ _ (by decide),
    byteAt_take _ _ _ (by decide), byteAt_take _ _ _ (by decide),
    byteAt_drop, byteAt_drop, byteAt_drop, byteAt_drop, byteAt_drop, byteAt_drop,
    byteAt_drop, byteAt_drop]
  rfl
theorem carry_blocks_32_succ (n : Nat) (data : List (Fin 256)) (k h : Nat) :
    carry_blocks_32 (n + 1) data (k, h) =
      carry_blocks_32 n (data.drop 4)
        (mix32_k1 (spec_le_word (data.take 4)),
          (rotl32 (h ^^^ mix32_k1 (spec_le_word (data.take 4))) 13 * 5 + 0xe6546b64) % 2 ^ 32) := by
  simp only [carry_blocks_32, mix32_k1]

theorem carry_blocks_32_eq_loop32 (data : List (Fin 256)) (nblocks : Nat) :
    ∀ n s, n ≤ nblocks →
      carry_blocks_32 n (data.drop ((nblocks - n) * 4)) s =
        (loop32 data nblocks n s, data.drop (nblocks * 4)) := by
  intro n
  induction n with
  | zero => intro s _; simp only [carry_blocks_32, loop32, Nat.sub_zero]
  | succ n ih =>
    rintro ⟨k, h⟩ hn
    have hoff : (nblocks - (n + 1)) * 4 + 4 = (nblocks - n) * 4 := by omega
    rw [carry_blocks_32_succ, ← getblock32_eq_le, List.drop_drop, hoff, ih _ (by omega), loop32_succ]

theorem spec_blocks_32_succ (n : Nat) (data : List (Fin 256)) (h : Nat) :
    spec_blocks_32 (n + 1) data h =
      spec_blocks_32 n (data.drop 4)
        ((rotl32 (h ^^^ mix32_k1 (spec_le_word (data.take 4))) 13 * 5 + 0xe6546b64) % 2 ^ 32) := by
  delta spec_blocks_32 mix32_k1
  rfl

/-- Dropping the carried word from the block part gives the block part of the
specification's algorithm. -/
theorem carry_blocks_32_spec :
    ∀ n data k h, spec_blocks_32 n data h =
      ((carry_blocks_32 n data (k, h)).1.2, (carry_blocks_32 n data (k, h)).2) := by
  intro n
  induction n with
  | zero => intro data k h; rfl
  | succ n ih =>
    intro data k h
    rw [spec_blocks_32_succ, carry_blocks_32_succ]
    exact ih _ _ _
/-- The tail switch of `murmur3_hash_32` when `tail` points at the last `c < 4` bytes
of the buffer: the bytes are XORed into `k1` as one little-endian word. -/
theorem tail32_snd (data : List (Fin 256)) (toff c k h : Nat) (hc : c < 4)
    (hlen : toff + c = data.length) :
    (tail32 data toff c (k, h)).2 =
      if (data.drop toff).length = 0 then h
      else h ^^^ mix32_k1 (k ^^^ spec_le_word (data.drop toff)) := by
  have hrl : (data.drop toff).length = c := by rw [List.length_drop]; omega
  have hw := spec_le_word_eq_xor4 (data.drop toff) (by omega)
  rw [byteAt_drop, byteAt_drop, byteAt_drop, byteAt_drop, Nat.add_zero] at hw
  have h3 : byteAt data (toff + 3) = 0 := byteAt_of_le _ _ (by omega)
  rw [hw, hrl, h3]
  simp only [tail32]
  interval_cases c
  · simp
  · have h1 : byteAt data (toff + 1) = 0 := byteAt_of_le _ _ (by omega)
    have h2 : byteAt data (toff + 2) = 0 := byteAt_of_le _ _ (by omega)
    simp [h1, h2]
  · have h2 : byteAt data (toff + 2) = 0 := byteAt_of_le _ _ (by omega)
    simp [h2]
    congr 1
    ac_rfl
  · simp
    congr 1
    ac_rfl

theorem and_three_eq_mod (len : Nat) : len &&& 3 = len % 4 :=
  Nat.and_pow_two_sub_one_eq_mod len 2

/-- On a whole buffer the embedded `murmur3_hash_32`, which indexes with exact
naturals, is the computation with the carried tail word. -/
theorem murmur3_hash_32_eq_carry (data : List (Fin 256)) (seed : Nat) :
    murmur3_hash_32 data data.length seed = carry_murmur3_32 data seed := by
  have hb := carry_blocks_32_eq_loop32 data (data.length / 4) (data.length / 4) (0, seed)
    (Nat.le_refl _)
  rw [Nat.sub_self, Nat.zero_mul, List.drop_zero] at hb
  simp only [murmur3_hash_32, carry_murmur3_32, hb, and_three_eq_mod]
  rcases loop32 data (data.length / 4) (data.length / 4) (0, seed) with ⟨k, h⟩
  rw [tail32_snd data _ _ k h (Nat.mod_lt _ (by decide)) (by omega)]
  simp only [mix32_k1]

theorem spec_blocks_32_zero (data : List (Fin 256)) (h : Nat) :
    spec_blocks_32 0 data h = (h, data) := rfl

theorem carry_blocks_32_zero (data : List (Fin 256)) (s : Nat × Nat) :
    carry_blocks_32 0 data s = (s, data) := rfl

/-- The computation with the carried tail word is the specification's algorithm
when the buffer has no complete block or no trailing byte. -/
theorem carry_murmur3_32_eq_spec (data : List (Fin 256)) (seed : Nat)
    (h : data.length < 4 ∨ data.length % 4 = 0) :
    carry_murmur3_32 data seed = spec_murmur3_32 data seed := by
  rcases h with h | h
  · have hn : data.length / 4 = 0 := Nat.div_eq_of_lt h
    simp only [carry_murmur3_32, spec_murmur3_32, hn, spec_blocks_32_zero,
      carry_blocks_32_zero, Nat.zero_xor]
  · have hb := carry_blocks_32_eq_loop32 data (data.length / 4) (data.length / 4) (0, seed)
      (Nat.le_refl _)
    rw [Nat.sub_self, Nat.zero_mul, List.drop_zero] at hb
    have hs := carry_blocks_32_spec (data.length / 4) data 0 seed
    have hl : (data.drop (data.length / 4 * 4)).length = 0 := by
      rw [List.length_drop]; omega
    simp only [carry_murmur3_32, spec_murmur3_32, hs, hb, hl, if_true]

/-! ## `murmur3_hash64_128` and the computation with the carried tail words -/

theorem mix64_k1_eq (k : Nat) :
    mix64_k1 k = spec_mix_64 0x87c37b91114253d5 31 0x4cf5ad432745937f k := rfl

theorem mix64_k2_eq (k : Nat) :
    mix64_k2 k = spec_mix_64 0x4cf5ad432745937f 33 0x87c37b91114253d5 k := rfl

theorem loop64_succ (data : List (Fin 256)) (nblocks n : Nat) (s : Lanes64) :
    loop64 data nblocks (n + 1) s =
      loop64 data nblocks n (body64 data (nblocks - (n + 1)) s) := rfl

/-- One iteration of the block loop on block `i`, in terms of the 16 bytes that
follow the first `16 * i` bytes of the buffer. -/
theorem carry_blocks_64_succ (n : Nat) (data : List (Fin 256)) (i : Nat) (s : Lanes64) :
    carry_blocks_64 (n + 1) (data.drop (i * 16)) ((s.k1, s.k2), (s.h1, s.h2)) =
      carry_blocks_64 n (data.drop ((i + 1) * 16))
        (((body64 data i s).k1, (body64 data i s).k2),
          ((body64 data i s).h1, (body64 data i s).h2)) := by
  have e1 : (i * 2 + 0) * 8 = i * 16 := by omega
  have e2 : (i * 2 + 1) * 8 = i * 16 + 8 := by omega
  have e3 : i * 16 + 16 = (i + 1) * 16 := by omega
  simp only [carry_blocks_64, body64, mix64_k1_eq, mix64_k2_eq, getblock64_eq_le, e1, e2,
    List.drop_drop, e3]

theorem carry_blocks_64_eq_loop64 (data : List (Fin 256)) (nblocks : Nat) :
    ∀ n s, n ≤ nblocks →
      carry_blocks_64 n (data.drop ((nblocks - n) * 16)) ((s.k1, s.k2), (s.h1, s.h2)) =
        ((((loop64 data nblocks n s).k1, (loop64 data nblocks n s).k2),
          ((loop64 data nblocks n s).h1, (loop64 data nblocks n s).h2)),
          data.drop (nblocks * 16)) := by
  intro n
  induction n with
  | zero => intro s _; rfl
  | succ n ih =>
    intro s hn
    have hoff : nblocks - (n + 1) + 1 = nblocks - n := by omega
    rw [carry_blocks_64_succ, hoff, ih _ (by omega), loop64_succ]

theorem xor_chain8 (k x0 x1 x2 x3 x4 x5 x6 x7 : Nat) :
    k ^^^ (x0 ^^^ x1 ^^^ x2 ^^^ x3 ^^^ x4 ^^^ x5 ^^^ x6 ^^^ x7) =
      k ^^^ x7 ^^^ x6 ^^^ x5 ^^^ x4 ^^^ x3 ^^^ x2 ^^^ x1 ^^^ x0 := by
  ac_rfl

set_option maxHeartbeats 1000000 in
/-- The tail switch of `murmur3_hash64_128` when `tail` points at the last `c < 16`
bytes of the buffer: bytes 8..14 are XORed into `k2` and bytes 0..7 into `k1`, each as
one little-endian word. -/
theorem tail64_lanes (data : List (Fin 256)) (toff c : Nat) (s : Lanes64) (hc : c < 16)
    (hlen : toff + c = data.length) :
    (tail64 data toff c s).h2 =
        (if 8 < (data.drop toff).length then
          s.h2 ^^^ mix64_k2 (s.k2 ^^^ spec_le_word ((data.drop toff).drop 8))
        else s.h2) ∧
      (tail64 data toff c s).h1 =
        (if 0 < (data.drop toff).length then
          s.h1 ^^^ mix64_k1 (s.k1 ^^^ spec_le_word ((data.drop toff).take 8))
        else s.h1) := by
  have hrl : (data.drop toff).length = c := by rw [List.length_drop]; omega
  have hz : ∀ j, c ≤ j → byteAt data (toff + j) = 0 :=
    fun j hj => byteAt_of_le _ _ (by omega)
  have hw1 := spec_le_word_eq_xor8 ((data.drop toff).take 8) (List.length_take_le _ _)
  rw [byteAt_take _ _ _ (by decide), byteAt_take _ _ _ (by decide),
    byteAt_take _ _ _ (by decide), byteAt_take _ _ _ (by decide),
    byteAt_take _ _ _ (by decide), byteAt_take _ _ _ (by decide),
    byteAt_take _ _ _ (by decide), byteAt_take _ _ _ (by decide)] at hw1
  have hw2 := spec_le_word_eq_xor8 ((data.drop toff).drop 8)
    (by rw [List.length_drop, hrl]; omega)
  simp only [byteAt_drop] at hw1 hw2
  rw [hw1, hw2, hrl, xor_chain8, xor_chain8]
  simp only [tail64]
  constructor
  · interval_cases c <;> simp [hz]
  · interval_cases c <;> simp [hz]

theorem and_fifteen_eq_mod (len : Nat) : len &&& 15 = len % 16 :=
  Nat.and_pow_two_sub_one_eq_mod len 4

/-- On a whole buffer the embedded `murmur3_hash64_128`, which indexes with exact
naturals, is the computation with the carried tail words. -/
theorem murmur3_hash64_128_eq_carry (data : List (Fin 256)) (seed : Nat) :
    murmur3_hash64_128 data data.length seed = carry_murmur3_64_128 data seed := by
  have hb := carry_blocks_64_eq_loop64 data (data.length / 16) (data.length / 16)
    { k1 := 0, k2 := 0, h1 := seed, h2 := seed } (Nat.le_refl _)
  rw [Nat.sub_self, Nat.zero_mul, List.drop_zero] at hb
  have ht := tail64_lanes data (data.length / 16 * 16) (data.length % 16)
    (loop64 data (data.length / 16) (data.length / 16)
      { k1 := 0, k2 := 0, h1 := seed, h2 := seed })
    (Nat.mod_lt _ (by decide)) (by omega)
  simp only [murmur3_hash64_128, carry_murmur3_64_128, hb, and_fifteen_eq_mod, final64,
    ht.1, ht.2, mix64_k1_eq, mix64_k2_eq]

theorem carry_blocks_64_step (n : Nat) (data : List (Fin 256)) (k : Nat × Nat) (h1 h2 : Nat) :
    carry_blocks_64 (n + 1) data (k, (h1, h2)) =
      carry_blocks_64 n (data.drop 16)
        ((spec_mix_64 0x87c37b91114253d5 31 0x4cf5ad432745937f (spec_le_word (data.take 8)),
          spec_mix_64 0x4cf5ad432745937f 33 0x87c37b91114253d5
            (spec_le_word ((data.drop 8).take 8))),
          (spec_blocks_64 1 data (h1, h2)).1) := by
  delta spec_blocks_64 carry_blocks_64
  rfl

theorem spec_blocks_64_step (n : Nat) (data : List (Fin 256)) (h : Nat × Nat) :
    spec_blocks_64 (n + 1) data h =
      spec_blocks_64 n (data.drop 16) (spec_blocks_64 1 data h).1 := by
  obtain ⟨h1, h2⟩ := h
  delta spec_blocks_64
  rfl

/-- Dropping the carried words from the block part gives the block part of the
specification's algorithm. -/
theorem carry_blocks_64_spec :
    ∀ n data k h, spec_blocks_64 n data h =
      ((carry_blocks_64 n data (k, h)).1.2, (carry_blocks_64 n data (k, h)).2) := by
  intro n
  induction n with
  | zero => intro data k h; rfl
  | succ n ih =>
    rintro data k ⟨h1, h2⟩
    rw [spec_blocks_64_step, carry_blocks_64_step]
    exact ih _ _ _

theorem spec_blocks_64_zero (data : List (Fin 256)) (h : Nat × Nat) :
    spec_blocks_64 0 data h = (h, data) := rfl

theorem carry_blocks_64_zero (data : List (Fin 256)) (s : (Nat × Nat) × (Nat × Nat)) :
    carry_blocks_64 0 data s = (s, data) := rfl

/-- The computation with the carried tail words is the specification's algorithm
when the buffer has no complete block or no trailing byte. -/
theorem carry_murmur3_64_128_eq_spec (data : List (Fin 256)) (seed : Nat)
    (h : data.length < 16 ∨ data.length % 16 = 0) :
    carry_murmur3_64_128 data seed = spec_murmur3_64_128 data seed := by
  rcases h with h | h
  · have hn : data.length / 16 = 0 := Nat.div_eq_of_lt h
    simp only [carry_murmur3_64_128, spec_murmur3_64_128, hn, spec_blocks_64_zero,
      carry_blocks_64_zero, Nat.zero_xor]
  · have hb := carry_blocks_64_eq_loop64 data (data.length / 16) (data.length / 16)
      { k1 := 0, k2 := 0, h1 := seed, h2 := seed } (Nat.le_refl _)
    rw [Nat.sub_self, Nat.zero_mul, List.drop_zero] at hb
    have hs := carry_blocks_64_spec (data.length / 16) data (0, 0) (seed, seed)
    have hl : (data.drop (data.length / 16 * 16)).length = 0 := by
      rw [List.length_drop]; omega
    simp only [carry_murmur3_64_128, spec_murmur3_64_128, hs, hb, hl, Nat.lt_irrefl,
      Nat.not_lt_zero, if_false]

/-! ## The byte offsets read stay inside the buffer -/

theorem wrap_int_eq {z : Int} (h1 : -2 ^ 31 ≤ z) (h2 : z < 2 ^ 31) : wrap_int z = z := by
  unfold wrap_int
  omega

theorem mem_getblock32_reads (off r : Int) :
    r ∈ getblock32_reads off ↔ off ≤ r ∧ r < off + 4 := by
  simp only [getblock32_reads, List.mem_cons, List.mem_singleton, List.not_mem_nil, or_false]
  omega

theorem mem_getblock64_reads (off r : Int) :
    r ∈ getblock64_reads off ↔ off ≤ r ∧ r < off + 8 := by
  simp only [getblock64_reads, List.mem_append, mem_getblock32_reads]
  omega

theorem mem_loop32_reads (base r : Int) :
    ∀ n : Nat, r ∈ loop32_reads base n ↔ base - 4 * n ≤ r ∧ r < base := by
  intro n
  induction n with
  | zero => simp only [loop32_reads, List.not_mem_nil, false_iff]; omega
  | succ n ih =>
    simp only [loop32_reads, List.mem_append, mem_getblock32_reads, ih]
    push_cast
    omega

theorem mem_tail32_reads (toff r : Int) (c : Nat) (hc : c < 4) :
    r ∈ tail32_reads toff c ↔ toff ≤ r ∧ r < toff + c := by
  interval_cases c <;> simp [tail32_reads] <;> omega

theorem mem_tail16_reads (toff r : Int) (c : Nat) (hc : c < 16) :
    r ∈ tail16_reads toff c ↔ toff ≤ r ∧ r < toff + c := by
  interval_cases c <;> simp [tail16_reads] <;> omega

theorem mem_loop128_reads (base r : Int) :
    ∀ n : Nat, n ≤ 2 ^ 29 → (r ∈ loop128_reads base n ↔ base - 16 * n ≤ r ∧ r < base) := by
  intro n
  induction n with
  | zero => intro _; simp only [loop128_reads, List.not_mem_nil, false_iff]; omega
  | succ n ih =>
    intro hn
    have hn' : ((n : Nat) : Int) + 1 ≤ 2 ^ 29 := by exact_mod_cast hn
    have w0 : wrap_int (-((n : Int) + 1) * 4 + 0) = -((n : Int) + 1) * 4 + 0 :=
      wrap_int_eq (by omega) (by omega)
    have w1 : wrap_int (-((n : Int) + 1) * 4 + 1) = -((n : Int) + 1) * 4 + 1 :=
      wrap_int_eq (by omega) (by omega)
    have w2 : wrap_int (-((n : Int) + 1) * 4 + 2) = -((n : Int) + 1) * 4 + 2 :=
      wrap_int_eq (by omega) (by omega)
    have w3 : wrap_int (-((n : Int) + 1) * 4 + 3) = -((n : Int) + 1) * 4 + 3 :=
      wrap_int_eq (by omega) (by omega)
    simp only [loop128_reads, List.mem_append, mem_getblock32_reads, ih (by omega), w0, w1,
      w2, w3]
    push_cast
    omega

theorem mem_loop64_reads (nblocks r : Int) (hnb : nblocks ≤ 2 ^ 29) :
    ∀ n : Nat, (n : Int) ≤ nblocks →
      (r ∈ loop64_reads nblocks n ↔ 16 * (nblocks - n) ≤ r ∧ r < 16 * nblocks) := by
  intro n
  induction n with
  | zero => intro _; simp only [loop64_reads, List.not_mem_nil, false_iff]; omega
  | succ n ih =>
    intro hn
    have hn' : ((n : Nat) : Int) + 1 ≤ nblocks := by exact_mod_cast hn
    have w0 : wrap_int ((nblocks - ((n : Int) + 1)) * 2 + 0) =
        (nblocks - ((n : Int) + 1)) * 2 + 0 := wrap_int_eq (by omega) (by omega)
    have w1 : wrap_int ((nblocks - ((n : Int) + 1)) * 2 + 1) =
        (nblocks - ((n : Int) + 1)) * 2 + 1 := wrap_int_eq (by omega) (by omega)
    simp only [loop64_reads, List.mem_append, mem_getblock64_reads, ih (by omega), w0, w1]
    push_cast
    omega

/-- For `len < 2^31` the block loop of `murmur3_hash_32` reads exactly the offsets
below `4 * (len / 4)` and the tail switch exactly those from there up to `len - 1`. -/
theorem murmur3_hash_32_reads_iff (len : Nat) (hfit : len < 2 ^ 31) (r : Int) :
    (r ∈ (murmur3_hash_32_reads len).1 ↔ 0 ≤ r ∧ r < 4 * ((len / 4 : Nat) : Int)) ∧
      (r ∈ (murmur3_hash_32_reads len).2 ↔ 4 * ((len / 4 : Nat) : Int) ≤ r ∧ r < len) := by
  have hl : ((len : Nat) : Int) < 2 ^ 31 := by exact_mod_cast hfit
  have hnb : wrap_int ((len / 4 : Nat) : Int) = ((len / 4 : Nat) : Int) :=
    wrap_int_eq (by omega) (by omega)
  have hbase : wrap_int (((len / 4 : Nat) : Int) * 4) = ((len / 4 : Nat) : Int) * 4 :=
    wrap_int_eq (by omega) (by omega)
  have hc : len % 4 < 4 := Nat.mod_lt _ (by decide)
  simp only [murmur3_hash_32_reads, hnb, hbase, Int.toNat_ofNat, and_three_eq_mod,
    mem_loop32_reads, mem_tail32_reads _ _ _ hc]
  constructor <;> omega

theorem murmur3_hash_128_reads_iff (len : Nat) (hfit : len < 2 ^ 31) (r : Int) :
    (r ∈ (murmur3_hash_128_reads len).1 ↔ 0 ≤ r ∧ r < 16 * ((len / 16 : Nat) : Int)) ∧
      (r ∈ (murmur3_hash_128_reads len).2 ↔ 16 * ((len / 16 : Nat) : Int) ≤ r ∧ r < len) := by
  have hl : ((len : Nat) : Int) < 2 ^ 31 := by exact_mod_cast hfit
  have hnb : wrap_int ((len / 16 : Nat) : Int) = ((len / 16 : Nat) : Int) :=
    wrap_int_eq (by omega) (by omega)
  have hbase : wrap_int (((len / 16 : Nat) : Int) * 16) = ((len / 16 : Nat) : Int) * 16 :=
    wrap_int_eq (by omega) (by omega)
  have hc : len % 16 < 16 := Nat.mod_lt _ (by decide)
  have hn : len / 16 ≤ 2 ^ 29 := by omega
  simp only [murmur3_hash_128_reads, hnb, hbase, Int.toNat_ofNat, and_fifteen_eq_mod,
    mem_loop128_reads _ _ _ hn, mem_tail16_reads _ _ _ hc]
  constructor <;> omega

theorem murmur3_hash64_128_reads_iff (len : Nat) (hfit : len < 2 ^ 31) (r : Int) :
    (r ∈ (murmur3_hash64_128_reads len).1 ↔ 0 ≤ r ∧ r < 16 * ((len / 16 : Nat) : Int)) ∧
      (r ∈ (murmur3_hash64_128_reads len).2 ↔ 16 * ((len / 16 : Nat) : Int) ≤ r ∧ r < len) := by
  have hl : ((len : Nat) : Int) < 2 ^ 31 := by exact_mod_cast hfit
  have hnb : wrap_int ((len / 16 : Nat) : Int) = ((len / 16 : Nat) : Int) :=
    wrap_int_eq (by omega) (by omega)
  have hbase : wrap_int (((len / 16 : Nat) : Int) * 16) = ((len / 16 : Nat) : Int) * 16 :=
    wrap_int_eq (by omega) (by omega)
  have hc : len % 16 < 16 := Nat.mod_lt _ (by decide)
  have hn : ((len / 16 : Nat) : Int) ≤ 2 ^ 29 := by omega
  simp only [murmur3_hash64_128_reads, hnb, hbase, Int.toNat_ofNat, and_fifteen_eq_mod,
    mem_loop64_reads _ _ hn _ (Int.le_refl _), mem_tail16_reads _ _ _ hc]
  constructor <;> omega

/-! ## The digests depend only on the bytes at the offsets read -/

theorem getblock32_congr {key key' : List (Fin 256)} {off : Nat}
    (h : ∀ j, j < 4 → byteAt key (off + j) = byteAt key' (off + j)) :
    getblock32 key off = getblock32 key' off := by
  have h0 := h 0 (by decide)
  rw [Nat.add_zero] at h0
  simp only [getblock32, h0, h 1 (by decide), h 2 (by decide), h 3 (by decide)]

theorem getblock64_congr {key key' : List (Fin 256)} {off : Nat}
    (h : ∀ j, j < 8 → byteAt key (off + j) = byteAt key' (off + j)) :
    getblock64 key off = getblock64 key' off := by
  have h1 : getblock32 key off = getblock32 key' off :=
    getblock32_congr (fun j hj => h j (by omega))
  have h2 : getblock32 key (off + 4) = getblock32 key' (off + 4) :=
    getblock32_congr (fun j hj => by rw [Nat.add_assoc]; exact h (4 + j) (by omega))
  simp only [getblock64, h1, h2]

theorem loop32_congr {key key' : List (Fin 256)} {nblocks : Nat}
    (h : ∀ i, i < nblocks * 4 → byteAt key i = byteAt key' i) :
    ∀ n s, n ≤ nblocks → loop32 key nblocks n s = loop32 key' nblocks n s := by
  intro n
  induction n with
  | zero => intro s _; rfl
  | succ n ih =>
    rintro ⟨k, h1⟩ hn
    have hg : getblock32 key ((nblocks - (n + 1)) * 4) =
        getblock32 key' ((nblocks - (n + 1)) * 4) :=
      getblock32_congr (fun j hj => h _ (by omega))
    rw [loop32_succ, loop32_succ, hg]
    exact ih _ (by omega)

theorem tail32_congr {key key' : List (Fin 256)} {toff c : Nat}
    (h : ∀ j, j < c → byteAt key (toff + j) = byteAt key' (toff + j)) (s : Nat × Nat) :
    tail32 key toff c s = tail32 key' toff c s := by
  obtain ⟨k, h1⟩ := s
  have b0 : 1 ≤ c → byteAt key toff = byteAt key' toff := fun hc => by
    have := h 0 (by omega)
    rwa [Nat.add_zero] at this
  have b1 : 2 ≤ c → byteAt key (toff + 1) = byteAt key' (toff + 1) := fun hc => h 1 (by omega)
  have b2 : 3 ≤ c → byteAt key (toff + 2) = byteAt key' (toff + 2) := fun hc => h 2 (by omega)
  simp only [tail32]
  by_cases h3 : 3 ≤ c
  · have h2 : 2 ≤ c := by omega
    have h1' : 1 ≤ c := by omega
    simp only [h3, h2, h1', if_true, b0 h1', b1 h2, b2 h3]
  · by_cases h2 : 2 ≤ c
    · have h1' : 1 ≤ c := by omega
      simp only [h3, h2, h1', if_true, if_false, b0 h1', b1 h2]
    · by_cases h1' : 1 ≤ c
      · simp only [h3, h2, h1', if_true, if_false, b0 h1']
      · simp only [h3, h2, h1', if_false]

/-- `murmur3_hash_32` depends only on the bytes at offsets below `len`. -/
theorem murmur3_hash_32_congr {key key' : List (Fin 256)} {len : Nat} (seed : Nat)
    (h : ∀ i, i < len → byteAt key i = byteAt key' i) :
    murmur3_hash_32 key len seed = murmur3_hash_32 key' len seed := by
  have hl : loop32 key (len / 4) (len / 4) (0, seed) = loop32 key' (len / 4) (len / 4) (0, seed) :=
    loop32_congr (fun i hi => h i (by omega)) _ _ (Nat.le_refl _)
  have ht := @tail32_congr key key' (len / 4 * 4) (len &&& 3)
    (fun j hj => h _ (by rw [and_three_eq_mod] at hj; omega))
    (loop32 key' (len / 4) (len / 4) (0, seed))
  simp only [murmur3_hash_32, hl, ht]

theorem body128_congr {key key' : List (Fin 256)} {off : Nat}
    (h : ∀ j, j < 16 → byteAt key (off + j) = byteAt key' (off + j)) (s : Lanes32) :
    body128 key off s = body128 key' off s := by
  have g0 : getblock32 key off = getblock32 key' off :=
    getblock32_congr (fun j hj => h j (by omega))
  have g1 : getblock32 key (off + 4) = getblock32 key' (off + 4) :=
    getblock32_congr (fun j hj => by rw [Nat.add_assoc]; exact h (4 + j) (by omega))
  have g2 : getblock32 key (off + 8) = getblock32 key' (off + 8) :=
    getblock32_congr (fun j hj => by rw [Nat.add_assoc]; exact h (8 + j) (by omega))
  have g3 : getblock32 key (off + 12) = getblock32 key' (off + 12) :=
    getblock32_congr (fun j hj => by rw [Nat.add_assoc]; exact h (12 + j) (by omega))
  simp only [body128, g0, g1, g2, g3]

theorem loop128_succ (data : List (Fin 256)) (nblocks n : Nat) (s : Lanes32) :
    loop128 data nblocks (n + 1) s =
      loop128 data nblocks n (body128 data ((nblocks - (n + 1)) * 16) s) := rfl

theorem loop128_congr {key key' : List (Fin 256)} {nblocks : Nat}
    (h : ∀ i, i < nblocks * 16 → byteAt key i = byteAt key' i) :
    ∀ n s, n ≤ nblocks → loop128 key nblocks n s = loop128 key' nblocks n s := by
  intro n
  induction n with
  | zero => intro s _; rfl
  | succ n ih =>
    intro s hn
    rw [loop128_succ, loop128_succ,
      @body128_congr key key' _ (fun j hj => h _ (by omega))]
    exact ih _ (by omega)

theorem body64_congr {key key' : List (Fin 256)} {i : Nat}
    (h : ∀ j, j < 16 → byteAt key (i * 16 + j) = byteAt key' (i * 16 + j)) (s : Lanes64) :
    body64 key i s = body64 key' i s := by
  have g0 : getblock64 key ((i * 2 + 0) * 8) = getblock64 key' ((i * 2 + 0) * 8) :=
    getblock64_congr (fun j hj => by
      have e : (i * 2 + 0) * 8 + j = i * 16 + j := by omega
      rw [e]; exact h j (by omega))
  have g1 : getblock64 key ((i * 2 + 1) * 8) = getblock64 key' ((i * 2 + 1) * 8) :=
    getblock64_congr (fun j hj => by
      have e : (i * 2 + 1) * 8 + j = i * 16 + (8 + j) := by omega
      rw [e]; exact h (8 + j) (by omega))
  simp only [body64, g0, g1]

theorem loop64_congr {key key' : List (Fin 256)} {nblocks : Nat}
    (h : ∀ i, i < nblocks * 16 → byteAt key i = byteAt key' i) :
    ∀ n s, n ≤ nblocks → loop64 key nblocks n s = loop64 key' nblocks n s := by
  intro n
  induction n with
  | zero => intro s _; rfl
  | succ n ih =>
    intro s hn
    rw [loop64_succ, loop64_succ,
      @body64_congr key key' _ (fun j hj => h _ (by omega))]
    exact ih _ (by omega)

set_option maxHeartbeats 1000000 in
theorem tail128_congr {key key' : List (Fin 256)} {toff c : Nat} (hc : c < 16)
    (h : ∀ j, j < c → byteAt key (toff + j) = byteAt key' (toff + j)) (s : Lanes32) :
    tail128 key toff c s = tail128 key' toff c s := by
  have b0 : 0 < c → byteAt key toff = byteAt key' toff := fun h0 => h 0 h0
  simp only [tail128]
  interval_cases c <;> simp [h, b0]

set_option maxHeartbeats 1000000 in
theorem tail64_congr {key key' : List (Fin 256)} {toff c : Nat} (hc : c < 16)
    (h : ∀ j, j < c → byteAt key (toff + j) = byteAt key' (toff + j)) (s : Lanes64) :
    tail64 key toff c s = tail64 key' toff c s := by
  have b0 : 0 < c → byteAt key toff = byteAt key' toff := fun h0 => h 0 h0
  simp only [tail64]
  interval_cases c <;> simp [h, b0]

/-- `murmur3_hash_128` depends only on the bytes at offsets below `len`. -/
theorem murmur3_hash_128_congr {key key' : List (Fin 256)} {len : Nat} (seed : Nat)
    (h : ∀ i, i < len → byteAt key i = byteAt key' i) :
    murmur3_hash_128 key len seed = murmur3_hash_128 key' len seed := by
  have hl := @loop128_congr key key' (len / 16)
    (fun i hi => h i (by omega)) (len / 16)
    { k1 := 0, k2 := 0, k3 := 0, k4 := 0, h1 := seed, h2 := seed, h3 := seed, h4 := seed }
    (Nat.le_refl _)
  have hc : len &&& 15 < 16 := by rw [and_fifteen_eq_mod]; exact Nat.mod_lt _ (by decide)
  have ht := @tail128_congr key key' (len / 16 * 16) _ hc
    (fun j hj => h _ (by rw [and_fifteen_eq_mod] at hj; omega))
    (loop128 key' (len / 16) (len / 16)
      { k1 := 0, k2 := 0, k3 := 0, k4 := 0, h1 := seed, h2 := seed, h3 := seed, h4 := seed })
  simp only [murmur3_hash_128, murmur3_hash_128_lanes, hl, ht]

/-- `murmur3_hash64_128` depends only on the bytes at offsets below `len`. -/
theorem murmur3_hash64_128_congr {key key' : List (Fin 256)} {len : Nat} (seed : Nat)
    (h : ∀ i, i < len → byteAt key i = byteAt key' i) :
    murmur3_hash64_128 key len seed = murmur3_hash64_128 key' len seed := by
  have hl := @loop64_congr key key' (len / 16)
    (fun i hi => h i (by omega)) (len / 16)
    { k1 := 0, k2 := 0, h1 := seed, h2 := seed } (Nat.le_refl _)
  have hc : len &&& 15 < 16 := by rw [and_fifteen_eq_mod]; exact Nat.mod_lt _ (by decide)
  have ht := @tail64_congr key key' (len / 16 * 16) _ hc
    (fun j hj => h _ (by rw [and_fifteen_eq_mod] at hj; omega))
    (loop64 key' (len / 16) (len / 16) { k1 := 0, k2 := 0, h1 := seed, h2 := seed })
  simp only [murmur3_hash64_128, hl, ht]

/-- Agreement of two buffers on a family of read offsets that covers `[0, len)`. -/
theorem agree_below_of_reads {key key' : List (Fin 256)} {len : Nat} {b : Int}
    {loop tail : List Int}
    (hloop : ∀ r : Int, r ∈ loop ↔ 0 ≤ r ∧ r < b)
    (htail : ∀ r : Int, r ∈ tail ↔ b ≤ r ∧ r < len)
    (h : ∀ r : Int, r ∈ loop ++ tail → byteAt key r.toNat = byteAt key' r.toNat) :
    ∀ i, i < len → byteAt key i = byteAt key' i := by
  intro i hi
  have hmem : ((i : Nat) : Int) ∈ loop ++ tail := by
    rw [List.mem_append, hloop, htail]
    omega
  have := h _ hmem
  rwa [Int.toNat_ofNat] at this

/-- Offsets in both lists lie in `[0, len)`. -/
theorem reads_in_range {len : Nat} {b : Int} {loop tail : List Int} {r : Int}
    (hb : 0 ≤ b) (hloop : r ∈ loop ↔ 0 ≤ r ∧ r < b) (htail : r ∈ tail ↔ b ≤ r ∧ r < len)
    (hble : b ≤ len) (h : r ∈ loop ++ tail) : 0 ≤ r ∧ r < len := by
  rw [List.mem_append, hloop, htail] at h
  omega

theorem murmur3_hash_32_reads_ok (key key' : List (Fin 256)) (len seed : Nat) (r : Int)
    (hlen : key.length = len) (hfit : len < 2 ^ 31) :
    (r ∈ (murmur3_hash_32_reads len).1 ↔ 0 ≤ r ∧ r < 4 * ((len / 4 : Nat) : Int)) ∧
      (r ∈ (murmur3_hash_32_reads len).2 →
        4 * ((len / 4 : Nat) : Int) ≤ r ∧ r ≤ (len : Int) - 1) ∧
      (r ∈ (murmur3_hash_32_reads len).1 ++ (murmur3_hash_32_reads len).2 →
        0 ≤ r ∧ r < key.length) ∧
      ((∀ q : Int, q ∈ (murmur3_hash_32_reads len).1 ++ (murmur3_hash_32_reads len).2 →
          byteAt key q.toNat = byteAt key' q.toNat) →
        murmur3_hash_32 key len seed = murmur3_hash_32 key' len seed) := by
  have hr := murmur3_hash_32_reads_iff len hfit
  refine ⟨(hr r).1, fun h => ?_, fun h => ?_, fun h => ?_⟩
  · have := (hr r).2.1 h
    omega
  · rw [hlen]
    exact reads_in_range (by omega) (hr r).1 (hr r).2 (by omega) h
  · exact murmur3_hash_32_congr seed
      (agree_below_of_reads (fun q => (hr q).1) (fun q => (hr q).2) h)

theorem murmur3_hash_128_reads_ok (key key' : List (Fin 256)) (len seed : Nat) (r : Int)
    (hlen : key.length = len) (hfit : len < 2 ^ 31) :
    (r ∈ (murmur3_hash_128_reads len).1 ↔ 0 ≤ r ∧ r < 16 * ((len / 16 : Nat) : Int)) ∧
      (r ∈ (murmur3_hash_128_reads len).2 →
        16 * ((len / 16 : Nat) : Int) ≤ r ∧ r ≤ (len : Int) - 1) ∧
      (r ∈ (murmur3_hash_128_reads len).1 ++ (murmur3_hash_128_reads len).2 →
        0 ≤ r ∧ r < key.length) ∧
      ((∀ q : Int, q ∈ (murmur3_hash_128_reads len).1 ++ (murmur3_hash_128_reads len).2 →
          byteAt key q.toNat = byteAt key' q.toNat) →
        murmur3_hash_128 key len seed = murmur3_hash_128 key' len seed) := by
  have hr := murmur3_hash_128_reads_iff len hfit
  refine ⟨(hr r).1, fun h => ?_, fun h => ?_, fun h => ?_⟩
  · have := (hr r).2.1 h
    omega
  · rw [hlen]
    exact reads_in_range (by omega) (hr r).1 (hr r).2 (by omega) h
  · exact murmur3_hash_128_congr seed
      (agree_below_of_reads (fun q => (hr q).1) (fun q => (hr q).2) h)

theorem murmur3_hash64_128_reads_ok (key key' : List (Fin 256)) (len seed : Nat) (r : Int)
    (hlen : key.length = len) (hfit : len < 2 ^ 31) :
    (r ∈ (murmur3_hash64_128_reads len).1 ↔ 0 ≤ r ∧ r < 16 * ((len / 16 : Nat) : Int)) ∧
      (r ∈ (murmur3_hash64_128_reads len).2 →
        16 * ((len / 16 : Nat) : Int) ≤ r ∧ r ≤ (len : Int) - 1) ∧
      (r ∈ (murmur3_hash64_128_reads len).1 ++ (murmur3_hash64_128_reads len).2 →
        0 ≤ r ∧ r < key.length) ∧
      ((∀ q : Int, q ∈ (murmur3_hash64_128_reads len).1 ++ (murmur3_hash64_128_reads len).2 →
          byteAt key q.toNat = byteAt key' q.toNat) →
        murmur3_hash64_128 key len seed = murmur3_hash64_128 key' len seed) := by
  have hr := murmur3_hash64_128_reads_iff len hfit
  refine ⟨(hr r).1, fun h => ?_, fun h => ?_, fun h => ?_⟩
  · have := (hr r).2.1 h
    omega
  · rw [hlen]
    exact reads_in_range (by omega) (hr r).1 (hr r).2 (by omega) h
  · exact murmur3_hash64_128_congr seed
      (agree_below_of_reads (fun q => (hr q).1) (fun q => (hr q).2) h)

/-- C13, as the source has it: a declared length of 2^31 + 1 bytes has block counts
that fit a signed 32-bit `int`, yet `nblocks*4` and `nblocks*16` leave the `int`
range, `tail` lands 2^31 bytes before the buffer, and each tail switch reads the
offset -2^31. -/
theorem murmur3_reads_leave_buffer :
    (2147483649 / 4 : Nat) < 2 ^ 31 ∧ (2147483649 / 16 : Nat) < 2 ^ 31 ∧
      (-2147483648 : Int) ∈ (murmur3_hash_32_reads 2147483649).2 ∧
      (-2147483648 : Int) ∈ (murmur3_hash_128_reads 2147483649).2 ∧
      (-2147483648 : Int) ∈ (murmur3_hash64_128_reads 2147483649).2 ∧
      ¬ (0 ≤ (-2147483648 : Int)) := by
  decide

/-- C13, amended: when the declared length equals the size of the buffer and is below
2^31, every byte offset `murmur3_hash_32`, `murmur3_hash_128` and
`murmur3_hash64_128` read lies in `[0, len)`: the block loop reads exactly the offsets
below `blocksize * (len / blocksize)`, the tail switch reads only offsets from there
up to `len - 1`, and the digest is the same for any buffer with the same bytes at the
offsets read. -/
theorem murmur3_reads_within_buffer (key key' : List (Fin 256)) (len seed : Nat) (r : Int)
    (hlen : key.length = len) (hfit : len < 2 ^ 31) :
    ((r ∈ (murmur3_hash_32_reads len).1 ↔ 0 ≤ r ∧ r < 4 * ((len / 4 : Nat) : Int)) ∧
      (r ∈ (murmur3_hash_32_reads len).2 →
        4 * ((len / 4 : Nat) : Int) ≤ r ∧ r ≤ (len : Int) - 1) ∧
      (r ∈ (murmur3_hash_32_reads len).1 ++ (murmur3_hash_32_reads len).2 →
        0 ≤ r ∧ r < key.length) ∧
      ((∀ q : Int, q ∈ (murmur3_hash_32_reads len).1 ++ (murmur3_hash_32_reads len).2 →
          byteAt key q.toNat = byteAt key' q.toNat) →
        murmur3_hash_32 key len seed = murmur3_hash_32 key' len seed)) ∧
    ((r ∈ (murmur3_hash_128_reads len).1 ↔ 0 ≤ r ∧ r < 16 * ((len / 16 : Nat) : Int)) ∧
      (r ∈ (murmur3_hash_128_reads len).2 →
        16 * ((len / 16 : Nat) : Int) ≤ r ∧ r ≤ (len : Int) - 1) ∧
      (r ∈ (murmur3_hash_128_reads len).1 ++ (murmur3_hash_128_reads len).2 →
        0 ≤ r ∧ r < key.length) ∧
      ((∀ q : Int, q ∈ (murmur3_hash_128_reads len).1 ++ (murmur3_hash_128_reads len).2 →
          byteAt key q.toNat = byteAt key' q.toNat) →
        murmur3_hash_128 key len seed = murmur3_hash_128 key' len seed)) ∧
    ((r ∈ (murmur3_hash64_128_reads len).1 ↔ 0 ≤ r ∧ r < 16 * ((len / 16 : Nat) : Int)) ∧
      (r ∈ (murmur3_hash64_128_reads len).2 →
        16 * ((len / 16 : Nat) : Int) ≤ r ∧ r ≤ (len : Int) - 1) ∧
      (r ∈ (murmur3_hash64_128_reads len).1 ++ (murmur3_hash64_128_reads len).2 →
        0 ≤ r ∧ r < key.length) ∧
      ((∀ q : Int, q ∈ (murmur3_hash64_128_reads len).1 ++ (murmur3_hash64_128_reads len).2 →
          byteAt key q.toNat = byteAt key' q.toNat) →
        murmur3_hash64_128 key len seed = murmur3_hash64_128 key' len seed)) :=
  ⟨murmur3_hash_32_reads_ok key key' len seed r hlen hfit,
    murmur3_hash_128_reads_ok key key' len seed r hlen hfit,
    murmur3_hash64_128_reads_ok key key' len seed r hlen hfit⟩

theorem murmur3_reads_within_buffer_witness :
    (0 ≤ (4 : Int) ∧ (4 : Int) < hello.length) ∧
      (0 ≤ (16 : Int) ∧ (16 : Int) < bytes17.length) :=
  ⟨(murmur3_reads_within_buffer hello hello 5 0 4 rfl (by decide)).1.2.2.1 (by decide),
    (murmur3_reads_within_buffer bytes17 bytes17 17 0 16 rfl (by decide)).2.2.2.2.1
      (by decide)⟩

/-! ## `murmur3_hash_32` on buffers of 2^31 bytes and more -/

theorem loop32_fst_lt (data : List (Fin 256)) (nblocks : Nat) :
    ∀ n k h, k < 2 ^ 32 → (loop32 data nblocks n (k, h)).1 < 2 ^ 32 := by
  intro n
  induction n with
  | zero => intro k h hk; exact hk
  | succ n ih =>
    intro k h _
    rw [loop32_succ]
    exact ih _ _ (mix32_k1_lt _)

theorem byteAt_append_left (pre : List (Fin 256)) (a : Fin 256) (i : Nat)
    (h : i < pre.length) : byteAt (pre ++ [a]) i = byteAt pre i := by
  simp [byteAt, List.getD_eq_getElem?_getD, List.getElem?_append_left h]

theorem byteAt_append_length (pre : List (Fin 256)) (a : Fin 256) :
    byteAt (pre ++ [a]) pre.length = a.val := by
  simp [byteAt, List.getD_eq_getElem?_getD]

theorem tail32_one (data : List (Fin 256)) (toff k h : Nat) :
    (tail32 data toff 1 (k, h)).2 = h ^^^ mix32_k1 (k ^^^ byteAt data toff) := rfl

/-- Two buffers of the same length that differ in a single trailing byte alone have
different computed digests. -/
theorem murmur3_hash_32_last_byte_inj (pre : List (Fin 256)) (a b : Fin 256) (seed : Nat)
    (hseed : seed < 2 ^ 32) (hpre : pre.length % 4 = 0)
    (h : murmur3_hash_32 (pre ++ [a]) (pre.length + 1) seed =
      murmur3_hash_32 (pre ++ [b]) (pre.length + 1) seed) : a = b := by
  have hnb : (pre.length + 1) / 4 * 4 = pre.length := by omega
  have hc : (pre.length + 1) &&& 3 = 1 := by rw [and_three_eq_mod]; omega
  have hl : loop32 (pre ++ [a]) ((pre.length + 1) / 4) ((pre.length + 1) / 4) (0, seed) =
      loop32 (pre ++ [b]) ((pre.length + 1) / 4) ((pre.length + 1) / 4) (0, seed) :=
    loop32_congr (fun i hi => by
      rw [byteAt_append_left _ _ _ (by omega), byteAt_append_left _ _ _ (by omega)]) _ _
      (Nat.le_refl _)
  have hk := loop32_fst_lt (pre ++ [b]) ((pre.length + 1) / 4) ((pre.length + 1) / 4) 0 seed
    (by decide)
  have hh := loop32_snd_lt (pre ++ [b]) ((pre.length + 1) / 4) ((pre.length + 1) / 4) 0 seed
    hseed
  simp only [murmur3_hash_32, hl, hc, hnb] at h
  generalize loop32 (pre ++ [b]) ((pre.length + 1) / 4) ((pre.length + 1) / 4) (0, seed) = s
    at h hk hh
  obtain ⟨k, h1⟩ := s
  simp only at hk hh
  rw [tail32_one, tail32_one, byteAt_append_length, byteAt_append_length] at h
  have ha : a.val < 2 ^ 32 := lt_trans a.2 (by decide)
  have hb : b.val < 2 ^ 32 := lt_trans b.2 (by decide)
  have hf := fmix_inj (Nat.mod_lt _ (by decide)) (Nat.mod_lt _ (by decide)) h
  have hx := xor_len_inj (Nat.xor_lt_two_pow hh (mix32_k1_lt _))
    (Nat.xor_lt_two_pow hh (mix32_k1_lt _)) hf
  have hm := mix32_k1_inj (Nat.xor_lt_two_pow hk ha) (Nat.xor_lt_two_pow hk hb)
    (Nat.xor_right_inj.1 hx)
  exact Fin.ext (Nat.xor_right_inj.1 hm)

theorem carry_murmur3_32_last_byte_ne (pre : List (Fin 256)) (a b : Fin 256) (seed : Nat)
    (hseed : seed < 2 ^ 32) (hpre : pre.length % 4 = 0) (hab : a ≠ b) :
    carry_murmur3_32 (pre ++ [a]) seed ≠ carry_murmur3_32 (pre ++ [b]) seed := by
  intro h
  have ea := murmur3_hash_32_eq_carry (pre ++ [a]) seed
  have eb := murmur3_hash_32_eq_carry (pre ++ [b]) seed
  rw [List.length_append, List.length_singleton] at ea eb
  exact hab (murmur3_hash_32_last_byte_inj pre a b seed hseed hpre (ea.trans (h.trans eb.symm)))

theorem murmur3_hash_32_loop_reads_big (r : Int)
    (h : r ∈ (murmur3_hash_32_reads 2147483649).1) : r < -2147483648 := by
  have hb : wrap_int (wrap_int ((2147483649 / 4 : Nat) : Int) * 4) = -2147483648 := by decide
  simp only [murmur3_hash_32_reads, hb, mem_loop32_reads] at h
  exact h.2

/-- C15, as the source has it: a buffer of 2^31 + 1 bytes has one trailing byte, at
offset 2^31.  The tail switch of the source reads offset -2^31 instead and its block
loop does not read offset 2^31 either, so that byte never reaches the digest; yet the
computation with the carried tail word separates two such buffers that differ in that
byte alone. -/
theorem murmur3_hash_32_skips_trailing_byte :
    (2147483649 &&& 3 = 1 ∧ 4 * (2147483649 / 4) = 2147483648) ∧
      (murmur3_hash_32_reads 2147483649).2 = [-2147483648] ∧
      (2147483648 : Int) ∉ (murmur3_hash_32_reads 2147483649).1 ∧
      (List.replicate 2147483648 (0 : Fin 256) ++ [1]).length = 2147483649 ∧
      carry_murmur3_32 (List.replicate 2147483648 0 ++ [1]) 0 ≠
        carry_murmur3_32 (List.replicate 2147483648 0 ++ [2]) 0 := by
  refine ⟨by decide, by decide, fun h => ?_, ?_, ?_⟩
  · have := murmur3_hash_32_loop_reads_big _ h
    omega
  · rw [List.length_append, List.length_replicate, List.length_singleton]
  · apply carry_murmur3_32_last_byte_ne _ _ _ _ (by decide)
    · rw [List.length_replicate]
    · decide

theorem murmur3_hash_32_reads_all (len : Nat) (hfit : len < 2 ^ 31) (r : Int) :
    r ∈ (murmur3_hash_32_reads len).1 ++ (murmur3_hash_32_reads len).2 ↔ 0 ≤ r ∧ r < len := by
  have hr := murmur3_hash_32_reads_iff len hfit r
  rw [List.mem_append, hr.1, hr.2]
  omega

/-- C15, amended: on every buffer of fewer than 2^31 bytes, where the source reads
exactly the bytes at the offsets `[0, len)` that the embedded function indexes,
`murmur3_hash_32` equals the computation whose tail word starts from the `k1` the
block loop left (the last complete block after multiply, rotate, multiply; 0 without
a block) and has the trailing bytes XORed in; hence it agrees with the
specification's algorithm on buffers shorter than 4 bytes and on such buffers whose
length is a multiple of 4. -/
theorem murmur3_hash_32_carries_k1 (data : List (Fin 256)) (seed : Nat)
    (hfit : data.length < 2 ^ 31) :
    murmur3_hash_32 data data.length seed = carry_murmur3_32 data seed ∧
      (data.length < 4 ∨ data.length % 4 = 0 →
        murmur3_hash_32 data data.length seed = spec_murmur3_32 data seed) ∧
      ∀ r : Int, r ∈ (murmur3_hash_32_reads data.length).1 ++
        (murmur3_hash_32_reads data.length).2 ↔ 0 ≤ r ∧ r < data.length :=
  ⟨murmur3_hash_32_eq_carry data seed,
    fun h => (murmur3_hash_32_eq_carry data seed).trans (carry_murmur3_32_eq_spec data seed h),
    murmur3_hash_32_reads_all data.length hfit⟩

theorem murmur3_hash_32_carries_k1_witness :
    murmur3_hash_32 [1, 2, 3] 3 5 = spec_murmur3_32 [1, 2, 3] 5 ∧
      murmur3_hash_32 bytes6 6 1 = carry_murmur3_32 bytes6 1 :=
  ⟨(murmur3_hash_32_carries_k1 [1, 2, 3] 5 (by decide)).2.1 (Or.inl (by decide)),
    (murmur3_hash_32_carries_k1 bytes6 1 (by decide)).1⟩

/-! ## `murmur3_hash64_128` on buffers of 2^31 bytes and more -/

theorem mix64_k1_lt (k : Nat) : mix64_k1 k < 2 ^ 64 :=
  Nat.mod_lt _ (by decide)

theorem mix64_k1_inj {a b : Nat} (ha : a < 2 ^ 64) (hb : b < 2 ^ 64)
    (h : mix64_k1 a = mix64_k1 b) : a = b := by
  simp only [mix64_k1] at h
  have h1 := mul_mod_inj (by decide) (rotl64_lt 31 (Nat.mod_lt _ (by decide)))
    (rotl64_lt 31 (Nat.mod_lt _ (by decide))) h
  have h2 := rotl64_inj (by decide) (Nat.mod_lt _ (by decide)) (Nat.mod_lt _ (by decide)) h1
  exact mul_mod_inj (by decide) ha hb h2

theorem loop64_lt (data : List (Fin 256)) (nblocks : Nat) :
    ∀ n s, s.k1 < 2 ^ 64 → s.h1 < 2 ^ 64 →
      (loop64 data nblocks n s).k1 < 2 ^ 64 ∧ (loop64 data nblocks n s).h1 < 2 ^ 64 := by
  intro n
  induction n with
  | zero => intro s hk hh; exact ⟨hk, hh⟩
  | succ n ih =>
    intro s _ _
    rw [loop64_succ]
    exact ih _ (mix64_k1_lt _) (Nat.mod_lt _ (by decide))

theorem tail64_one (data : List (Fin 256)) (toff : Nat) (s : Lanes64) :
    (tail64 data toff 1 s).h1 = s.h1 ^^^ mix64_k1 (s.k1 ^^^ byteAt data toff) ∧
      (tail64 data toff 1 s).h2 = s.h2 :=
  ⟨rfl, rfl⟩

theorem add_mod_right_inj {m a b c : Nat} (ha : a < m) (hb : b < m)
    (h : (a + c) % m = (b + c) % m) : a = b := by
  have h1 : a ≡ b [MOD m] := Nat.ModEq.add_right_cancel' c h
  rwa [Nat.ModEq, Nat.mod_eq_of_lt ha, Nat.mod_eq_of_lt hb] at h1

theorem xor_len_inj64 {a b len : Nat} (ha : a < 2 ^ 64) (hb : b < 2 ^ 64)
    (h : (a ^^^ len) % 2 ^ 64 = (b ^^^ len) % 2 ^ 64) : a = b := by
  rw [xor_mod_two_pow, xor_mod_two_pow, Nat.mod_eq_of_lt ha, Nat.mod_eq_of_lt hb] at h
  exact Nat.xor_left_inj.1 h

theorem cross_add_inj {m f1 f2 g1 g2 : Nat} (hf1 : f1 < m) (hf2 : f2 < m) (hg1 : g1 < m)
    (hg2 : g2 < m) (h1 : (f1 + f2) % m = (g1 + g2) % m)
    (h2 : (f2 + (f1 + f2) % m) % m = (g2 + (g1 + g2) % m) % m) : f1 = g1 := by
  rw [← h1] at h2
  have e2 : f2 = g2 := add_mod_right_inj hf2 hg2 h2
  rw [← e2] at h1
  exact add_mod_right_inj hf1 hg1 h1

/-- The finalization of `murmur3_hash64_128` is injective in `h1` once `h2` and the
length are fixed. -/
theorem final64_inj_left {a b h2 len : Nat} (ha : a < 2 ^ 64) (hb : b < 2 ^ 64)
    (h : final64 a h2 len = final64 b h2 len) : a = b := by
  simp only [final64, Prod.mk.injEq] at h
  have hf := cross_add_inj (fmix64_lt _) (fmix64_lt _) (fmix64_lt _) (fmix64_lt _) h.1 h.2
  have hx := fmix64_inj (Nat.mod_lt _ (by decide)) (Nat.mod_lt _ (by decide)) hf
  have hy := add_mod_right_inj (Nat.mod_lt _ (by decide)) (Nat.mod_lt _ (by decide)) hx
  exact xor_len_inj64 ha hb hy

/-- Two buffers of the same length that differ in a single trailing byte alone have
different computed digests. -/
theorem murmur3_hash64_128_last_byte_inj (pre : List (Fin 256)) (a b : Fin 256) (seed : Nat)
    (hseed : seed < 2 ^ 32) (hpre : pre.length % 16 = 0)
    (h : murmur3_hash64_128 (pre ++ [a]) (pre.length + 1) seed =
      murmur3_hash64_128 (pre ++ [b]) (pre.length + 1) seed) : a = b := by
  have hnb : (pre.length + 1) / 16 * 16 = pre.length := by omega
  have hc : (pre.length + 1) &&& 15 = 1 := by rw [and_fifteen_eq_mod]; omega
  have hl : loop64 (pre ++ [a]) ((pre.length + 1) / 16) ((pre.length + 1) / 16)
        { k1 := 0, k2 := 0, h1 := seed, h2 := seed } =
      loop64 (pre ++ [b]) ((pre.length + 1) / 16) ((pre.length + 1) / 16)
        { k1 := 0, k2 := 0, h1 := seed, h2 := seed } :=
    loop64_congr (fun i hi => by
      rw [byteAt_append_left _ _ _ (by omega), byteAt_append_left _ _ _ (by omega)]) _ _
      (Nat.le_refl _)
  have hs64 : seed < 2 ^ 64 := lt_trans hseed (by decide)
  have hlt := loop64_lt (pre ++ [b]) ((pre.length + 1) / 16) ((pre.length + 1) / 16)
    { k1 := 0, k2 := 0, h1 := seed, h2 := seed } (Nat.two_pow_pos 64) hs64
  simp only [murmur3_hash64_128, hl, hc, hnb] at h
  generalize loop64 (pre ++ [b]) ((pre.length + 1) / 16) ((pre.length + 1) / 16)
    { k1 := 0, k2 := 0, h1 := seed, h2 := seed } = s at h hlt
  rw [(tail64_one _ _ _).1, (tail64_one _ _ _).2, (tail64_one _ _ _).1, (tail64_one _ _ _).2,
    byteAt_append_length, byteAt_append_length] at h
  have ha : a.val < 2 ^ 64 := lt_trans a.2 (by decide)
  have hb : b.val < 2 ^ 64 := lt_trans b.2 (by decide)
  have hx := final64_inj_left (Nat.xor_lt_two_pow hlt.2 (mix64_k1_lt _))
    (Nat.xor_lt_two_pow hlt.2 (mix64_k1_lt _)) h
  have hm := mix64_k1_inj (Nat.xor_lt_two_pow hlt.1 ha) (Nat.xor_lt_two_pow hlt.1 hb)
    (Nat.xor_right_inj.1 hx)
  exact Fin.ext (Nat.xor_right_inj.1 hm)

theorem carry_murmur3_64_128_last_byte_ne (pre : List (Fin 256)) (a b : Fin 256) (seed : Nat)
    (hseed : seed < 2 ^ 32) (hpre : pre.length % 16 = 0) (hab : a ≠ b) :
    carry_murmur3_64_128 (pre ++ [a]) seed ≠ carry_murmur3_64_128 (pre ++ [b]) seed := by
  intro h
  have ea := murmur3_hash64_128_eq_carry (pre ++ [a]) seed
  have eb := murmur3_hash64_128_eq_carry (pre ++ [b]) seed
  rw [List.length_append, List.length_singleton] at ea eb
  exact hab
    (murmur3_hash64_128_last_byte_inj pre a b seed hseed hpre (ea.trans (h.trans eb.symm)))

theorem murmur3_hash64_128_loop_reads_big (r : Int)
    (h : r ∈ (murmur3_hash64_128_reads 2147483649).1) : r < 2147483648 := by
  have hn : wrap_int ((2147483649 / 16 : Nat) : Int) = 134217728 := by decide
  have hm := mem_loop64_reads 134217728 r (by decide) 134217728 (by decide)
  simp only [murmur3_hash64_128_reads, hn] at h
  have ht : (134217728 : Int).toNat = 134217728 := by decide
  rw [ht] at h
  have := (hm.1 h).2
  omega

theorem murmur3_hash64_128_reads_all (len : Nat) (hfit : len < 2 ^ 31) (r : Int) :
    r ∈ (murmur3_hash64_128_reads len).1 ++ (murmur3_hash64_128_reads len).2 ↔
      0 ≤ r ∧ r < len := by
  have hr := murmur3_hash64_128_reads_iff len hfit r
  rw [List.mem_append, hr.1, hr.2]
  omega

/-- C16, as the source has it: a buffer of 2^31 + 1 bytes has one trailing byte, at
offset 2^31.  The tail switch of the source reads offset -2^31 instead and its block
loop reads only offsets below 2^31, so that byte never reaches the digest; yet the
computation with the carried tail words separates two such buffers that differ in
that byte alone. -/
theorem murmur3_hash64_128_skips_trailing_byte :
    (2147483649 &&& 15 = 1 ∧ 16 * (2147483649 / 16) = 2147483648) ∧
      (murmur3_hash64_128_reads 2147483649).2 = [-2147483648] ∧
      (2147483648 : Int) ∉ (murmur3_hash64_128_reads 2147483649).1 ∧
      (List.replicate 2147483648 (0 : Fin 256) ++ [1]).length = 2147483649 ∧
      carry_murmur3_64_128 (List.replicate 2147483648 0 ++ [1]) 0 ≠
        carry_murmur3_64_128 (List.replicate 2147483648 0 ++ [2]) 0 := by
  refine ⟨by decide, by decide, fun h => ?_, ?_, ?_⟩
  · have := murmur3_hash64_128_loop_reads_big _ h
    omega
  · rw [List.length_append, List.length_replicate, List.length_singleton]
  · apply carry_murmur3_64_128_last_byte_ne _ _ _ _ (by decide)
    · rw [List.length_replicate]
    · decide

/-- C16, amended: on every buffer of fewer than 2^31 bytes, where the source reads
exactly the bytes at the offsets `[0, len)` that the embedded function indexes,
`murmur3_hash64_128` equals the computation whose tail words `k1`, `k2` start from the
values the block loop left (the two words of the last complete 16-byte block after
multiply, rotate, multiply; 0 without a block) and have the trailing bytes XORed in,
`k2` entering only when 9 to 15 bytes remain; hence it agrees with the specification's
algorithm on buffers shorter than 16 bytes and on such buffers whose length is a
multiple of 16. -/
theorem murmur3_hash64_128_carries_k (data : List (Fin 256)) (seed : Nat)
    (hfit : data.length < 2 ^ 31) :
    murmur3_hash64_128 data data.length seed = carry_murmur3_64_128 data seed ∧
      (data.length < 16 ∨ data.length % 16 = 0 →
        murmur3_hash64_128 data data.length seed = spec_murmur3_64_128 data seed) ∧
      ∀ r : Int, r ∈ (murmur3_hash64_128_reads data.length).1 ++
        (murmur3_hash64_128_reads data.length).2 ↔ 0 ≤ r ∧ r < data.length :=
  ⟨murmur3_hash64_128_eq_carry data seed,
    fun h =>
      (murmur3_hash64_128_eq_carry data seed).trans (carry_murmur3_64_128_eq_spec data seed h),
    murmur3_hash64_128_reads_all data.length hfit⟩

theorem murmur3_hash64_128_carries_k_witness :
    murmur3_hash64_128 hello 5 0 = spec_murmur3_64_128 hello 0 ∧
      murmur3_hash64_128 bytes17 17 0 = carry_murmur3_64_128 bytes17 0 :=
  ⟨(murmur3_hash64_128_carries_k hello 0 (by decide)).2.1 (Or.inl (by decide)),
    (murmur3_hash64_128_carries_k bytes17 0 (by decide)).1⟩

end PortableLib
